import Mathlib

/-!
Verification of the fractale terrain pipeline (geo.c, plasma.c, iso.c).

Doubles are modelled as rationals (ℚ), machine integers as ℕ/ℤ with
explicit `% 2^w` where wrap-around matters.  Buffers are modelled as total
functions `ℕ → ℚ` indexed exactly as in the C source (`y*W + x`), and the
per-cell computations are transcribed statement by statement.
-/

set_option maxHeartbeats 1000000

namespace Plasma

/-- `normalize01` (plasma.c): the min/max scan `for (i = 1; i < N; ++i)`,
folded left over indices `1..N-1` starting from `(grid[0], grid[0])`. -/
def minmax (g : ℕ → ℚ) (N : ℕ) : ℚ × ℚ :=
  (List.range' 1 (N - 1)).foldl
    (fun mm i =>
      (if g i < mm.1 then g i else mm.1, if mm.2 < g i then g i else mm.2))
    (g 0, g 0)

/-- `normalize01` (plasma.c, lines 234-247): if `mx - mn <= 1e-12` every cell
becomes `0.5`, otherwise each cell becomes `(grid[i] - mn) / (mx - mn)`. -/
def normalize01 (g : ℕ → ℚ) (N : ℕ) : ℕ → ℚ :=
  let mn := (minmax g N).1
  let mx := (minmax g N).2
  if mx - mn ≤ 1 / 10 ^ 12 then fun _ => 1 / 2
  else fun i => (g i - mn) / (mx - mn)

theorem minmax_le_of_mem (g : ℕ → ℚ) (N : ℕ) {i : ℕ} (hi : i < N) :
    (minmax g N).1 ≤ g i ∧ g i ≤ (minmax g N).2 := by
  unfold minmax
  -- step function of the scan
  set f : ℚ × ℚ → ℕ → ℚ × ℚ := fun mm i =>
    (if g i < mm.1 then g i else mm.1, if mm.2 < g i then g i else mm.2) with hf
  have hstep : ∀ (mm : ℚ × ℚ) (j : ℕ), (f mm j).1 ≤ mm.1 ∧ mm.2 ≤ (f mm j).2 := by
    intro mm j
    simp only [hf]
    constructor
    · split <;> simp_all [le_of_lt]
    · split <;> simp_all [le_of_lt]
  -- the scan only improves the bounds
  have hmono : ∀ (l : List ℕ) (mm : ℚ × ℚ),
      (l.foldl f mm).1 ≤ mm.1 ∧ mm.2 ≤ (l.foldl f mm).2 := by
    intro l
    induction l with
    | nil => intro mm; exact ⟨le_refl _, le_refl _⟩
    | cons a t ih =>
        intro mm
        have h1 := hstep mm a
        have h2 := ih (f mm a)
        exact ⟨le_trans h2.1 h1.1, le_trans h1.2 h2.2⟩
  -- any visited index is bounded by the final state
  have hmem : ∀ (l : List ℕ) (mm : ℚ × ℚ), i ∈ l →
      (l.foldl f mm).1 ≤ g i ∧ g i ≤ (l.foldl f mm).2 := by
    intro l
    induction l with
    | nil => intro mm h; cases h
    | cons a t ih =>
        intro mm h
        rcases List.mem_cons.mp h with h | h
        · subst h
          have hfirst : (f mm i).1 ≤ g i ∧ g i ≤ (f mm i).2 := by
            simp only [hf]
            constructor
            · split <;> simp_all [le_of_lt, le_of_not_lt]
            · split <;> simp_all [le_of_lt, le_of_not_lt]
          have := hmono t (f mm i)
          exact ⟨le_trans this.1 hfirst.1, le_trans hfirst.2 this.2⟩
        · exact ih (f mm a) h
  rcases Nat.eq_zero_or_pos i with h0 | hpos
  · subst h0
    have := hmono (List.range' 1 (N - 1)) (g 0, g 0)
    exact this
  · have : i ∈ List.range' 1 (N - 1) := by
      rw [List.mem_range'_1]
      omega
    exact hmem _ _ this

/-- CLAIM C10: in the plasma variant, a grid whose computed max and min differ
by at most `1e-12` is normalized to the constant `0.5`. -/
theorem C10_flat_grid_normalizes_to_half (g : ℕ → ℚ) (N : ℕ)
    (hflat : (minmax g N).2 - (minmax g N).1 ≤ 1 / 10 ^ 12) :
    ∀ i, normalize01 g N i = 1 / 2 := by
  intro i
  unfold normalize01
  simp only [hflat, if_pos]

/-- Witness for C10: the constant grid of value `3/10` on 4 cells is
normalized to `1/2` at every cell, e.g. at cell 2. -/
theorem C10_flat_grid_normalizes_to_half_witness :
    (minmax (fun _ => 3 / 10) 4).2 - (minmax (fun _ => 3 / 10) 4).1 ≤ 1 / 10 ^ 12
      ∧ normalize01 (fun _ => 3 / 10) 4 2 = 1 / 2 :=
  ⟨by norm_num [minmax, List.range'],
   C10_flat_grid_normalizes_to_half (fun _ => 3 / 10) 4
     (by norm_num [minmax, List.range']) 2⟩

/-- The doubling loop of `pow2plus1_at_least` (plasma.c):
`while (side < target) side <<= 1;`. -/
def pow2go (target side : ℕ) (hs : 0 < side) : ℕ :=
  if _h : side < target then pow2go target (2 * side) (by omega) else side
termination_by target - side
decreasing_by omega

/-- `pow2plus1_at_least` (plasma.c, lines 90-95): the smallest `m = 2^n + 1`
with `m >= need`; `side` represents `m - 1`, `target` is
`(need <= 1) ? 1 : (need - 1)`. -/
def pow2plus1_at_least (need : ℕ) : ℕ :=
  pow2go (if need ≤ 1 then 1 else need - 1) 1 one_pos + 1

theorem pow2go_ge (target side : ℕ) (hs : 0 < side) :
    target ≤ pow2go target side hs := by
  induction side, hs using pow2go.induct target with
  | case1 s hs h ih => rwa [pow2go, dif_pos h]
  | case2 s hs h => rw [pow2go, dif_neg h]; omega

theorem pow2go_pow (target : ℕ) : ∀ (side : ℕ) (hs : 0 < side) (j : ℕ),
    side = 2 ^ j →
    ∃ k, pow2go target side hs = 2 ^ k ∧ j ≤ k ∧
      ∀ m, j ≤ m → target ≤ 2 ^ m → 2 ^ k ≤ 2 ^ m := by
  intro side hs
  induction side, hs using pow2go.induct target with
  | case1 s hs h ih =>
      intro j hj
      rw [pow2go, dif_pos h]
      obtain ⟨k, hk, hjk, hmin⟩ := ih (j + 1) (by rw [hj]; ring)
      refine ⟨k, hk, by omega, ?_⟩
      intro m hm htm
      rcases Nat.eq_or_lt_of_le hm with h' | h'
      · exfalso
        rw [← h', ← hj] at htm
        omega
      · exact hmin m (by omega) htm
  | case2 s hs h =>
      intro j hj
      exact ⟨j, by rw [pow2go, dif_neg h, hj], le_refl j,
        fun m hm _ => Nat.pow_le_pow_right (by norm_num) hm⟩

end Plasma

namespace Geo

/-- The loop `int n = 1; while (((1<<n) + 1) < maxdim) n++;` from
geo.c `main` (lines 364-370), generalized over the start value of `n`. -/
def sideExpAux (maxdim n : ℕ) : ℕ :=
  if _h : 2 ^ n + 1 < maxdim then sideExpAux maxdim (n + 1) else n
termination_by maxdim - n
decreasing_by
  have := Nat.lt_two_pow n
  omega

/-- The exponent `n` geo computes for the diamond-square side. -/
def sideExp (maxdim : ℕ) : ℕ := sideExpAux maxdim 1

/-- The internal diamond-square side `P = (1<<n) + 1` computed by geo.c
for output dimensions `W`, `H` (with `maxdim = max W H`). -/
def geoSide (W H : ℕ) : ℕ := 2 ^ sideExp (max W H) + 1

/-- geo.c accepts a `-x`/`-y` argument value `v` only when `v > 1`
(`if (*e!='\0' || v<=1) { usage(argv[0]); return 1; }`). -/
def dimAccepted (v : ℤ) : Bool := !(v ≤ 1)

theorem sideExpAux_covers (maxdim n : ℕ) :
    maxdim ≤ 2 ^ sideExpAux maxdim n + 1 := by
  induction n using sideExpAux.induct maxdim with
  | case1 x h ih => rwa [sideExpAux, dif_pos h]
  | case2 x h => rw [sideExpAux, dif_neg h]; omega

theorem sideExpAux_min (maxdim m : ℕ) (hcov : maxdim ≤ 2 ^ m + 1) :
    ∀ n, n ≤ m → sideExpAux maxdim n ≤ m := by
  intro n
  induction n using sideExpAux.induct maxdim with
  | case1 x h ih =>
      intro hnm
      rw [sideExpAux, dif_pos h]
      have hxm : x < m := by
        by_contra hx
        have hmx : m ≤ x := by omega
        have := Nat.pow_le_pow_right (show 1 ≤ 2 by norm_num) hmx
        omega
      exact ih (by omega)
  | case2 x h =>
      intro hnm
      rw [sideExpAux, dif_neg h]
      exact hnm

theorem sideExpAux_ge_start (maxdim n : ℕ) : n ≤ sideExpAux maxdim n := by
  induction n using sideExpAux.induct maxdim with
  | case1 x h ih => rw [sideExpAux, dif_pos h]; omega
  | case2 x h => rw [sideExpAux, dif_neg h]

end Geo

/-- `P` is a power-of-two-plus-one side covering `d`, and the least one. -/
def IsMinPow2p1 (d P : ℕ) : Prop :=
  (∃ k, P = 2 ^ k + 1) ∧ d ≤ P ∧ ∀ m, d ≤ 2 ^ m + 1 → P ≤ 2 ^ m + 1

/-- Counterexample for CLAIM C6: at the accepted output dimensions
`W = H = 2`, geo.c computes the side `3 = 2^1 + 1` (its search starts at
`n = 1`), yet `2 = 2^0 + 1` already covers `max(W,H) = 2`, so the side is
not minimal. -/
theorem C6_counterexample_geo_side_not_minimal :
    Geo.geoSide 2 2 = 3 ∧ Geo.dimAccepted 2 = true ∧
      ¬ IsMinPow2p1 (max 2 2) (Geo.geoSide 2 2) := by
  have h3 : Geo.geoSide 2 2 = 3 := by
    rw [Geo.geoSide, Geo.sideExp, Geo.sideExpAux]
    norm_num
  refine ⟨h3, by decide, ?_⟩
  rintro ⟨-, -, hmin⟩
  have := hmin 0 (by norm_num)
  rw [h3] at this
  norm_num at this

/-- CLAIM C6 (amended): plasma.c's `pow2plus1_at_least` returns the minimal
power-of-two-plus-one side covering `need` for every accepted dimension
(`need ≥ 1`); geo.c computes `2^n + 1` for the smallest `n ≥ 1` with
`2^n + 1 ≥ max(W,H)`, which is the minimal covering side whenever
`max(W,H) ≥ 3` (for `W = H = 2` it returns 3 although 2 covers). -/
theorem C6_amended_minimal_pow2plus1_side :
    (∀ need, 1 ≤ need → IsMinPow2p1 need (Plasma.pow2plus1_at_least need)) ∧
    (∀ W H, 2 ≤ W → 2 ≤ H → 3 ≤ max W H →
      IsMinPow2p1 (max W H) (Geo.geoSide W H)) ∧
    (∀ W H, 2 ≤ W → 2 ≤ H →
      1 ≤ Geo.sideExp (max W H) ∧
      Geo.geoSide W H = 2 ^ Geo.sideExp (max W H) + 1 ∧
      max W H ≤ Geo.geoSide W H ∧
      ∀ m, 1 ≤ m → max W H ≤ 2 ^ m + 1 → Geo.sideExp (max W H) ≤ m) := by
  refine ⟨?_, ?_, ?_⟩
  · intro need hneed
    unfold Plasma.pow2plus1_at_least
    obtain ⟨k, hk, -, hmin⟩ :=
      Plasma.pow2go_pow (if need ≤ 1 then 1 else need - 1) 1 one_pos 0 (by norm_num)
    have hge := Plasma.pow2go_ge (if need ≤ 1 then 1 else need - 1) 1 one_pos
    refine ⟨⟨k, by rw [hk]⟩, ?_, ?_⟩
    · by_cases hn : need ≤ 1
      · rw [if_pos hn] at hge ⊢; omega
      · rw [if_neg hn] at hge ⊢; omega
    · intro m hm
      have h1 : 0 < 2 ^ m := pow_pos (by norm_num) m
      have htm : (if need ≤ 1 then 1 else need - 1) ≤ 2 ^ m := by
        by_cases hn : need ≤ 1
        · rw [if_pos hn]; omega
        · rw [if_neg hn]; omega
      have h2 := hmin m (Nat.zero_le m) htm
      rw [hk]
      omega
  · intro W H hW hH hmax
    refine ⟨⟨Geo.sideExp (max W H), rfl⟩, Geo.sideExpAux_covers _ 1, ?_⟩
    intro m hcov
    have hm1 : 1 ≤ m := by
      rcases Nat.eq_zero_or_pos m with rfl | h
      · simp at hcov; omega
      · exact h
    have hle : Geo.sideExp (max W H) ≤ m :=
      Geo.sideExpAux_min (max W H) m hcov 1 hm1
    have := Nat.pow_le_pow_right (show 1 ≤ 2 by norm_num) hle
    rw [Geo.geoSide]
    omega
  · intro W H hW hH
    refine ⟨Geo.sideExpAux_ge_start _ 1, rfl, Geo.sideExpAux_covers _ 1, ?_⟩
    intro m hm hcov
    exact Geo.sideExpAux_min (max W H) m hcov 1 hm

/-- Witness for the amended C6: concrete applications at `need = 5` and at
`W = 4, H = 3`. -/
theorem C6_amended_minimal_pow2plus1_side_witness :
    (1 ≤ 5 ∧ IsMinPow2p1 5 (Plasma.pow2plus1_at_least 5)) ∧
      (2 ≤ 4 ∧ 2 ≤ 3 ∧ 3 ≤ max 4 3 ∧ IsMinPow2p1 (max 4 3) (Geo.geoSide 4 3)) :=
  ⟨⟨by norm_num, C6_amended_minimal_pow2plus1_side.1 5 (by norm_num)⟩,
   ⟨by norm_num, by norm_num, by norm_num,
    C6_amended_minimal_pow2plus1_side.2.1 4 3 (by norm_num) (by norm_num) (by norm_num)⟩⟩


namespace Geo

/-- One output cell of `resample_bilinear` (geo.c, lines 135-158): source
coordinates `u = x*(P-1)/(W-1)`, `v = y*(P-1)/(H-1)` with NO guard on the
denominators, floor to `x0,y0`, clamp `x1,y1` to `P-1`, then bilinear blend.
`src` is the `P × P` diamond-square grid, indexed `src[y*P + x]`. -/
def resampleCellV (src : ℕ → ℚ) (P W H x y : ℕ) : ℚ :=
  let v : ℚ := (y : ℚ) * ((P : ℚ) - 1) / ((H : ℚ) - 1)
  let y0 : ℤ := ⌊v⌋
  let y1 : ℤ := if (P : ℤ) ≤ y0 + 1 then (P : ℤ) - 1 else y0 + 1
  let fy : ℚ := v - (y0 : ℚ)
  let u : ℚ := (x : ℚ) * ((P : ℚ) - 1) / ((W : ℚ) - 1)
  let x0 : ℤ := ⌊u⌋
  let x1 : ℤ := if (P : ℤ) ≤ x0 + 1 then (P : ℤ) - 1 else x0 + 1
  let fx : ℚ := u - (x0 : ℚ)
  let a := src (y0.toNat * P + x0.toNat)
  let b := src (y0.toNat * P + x1.toNat)
  let c := src (y1.toNat * P + x0.toNat)
  let d := src (y1.toNat * P + x1.toNat)
  let v0 := a * (1 - fx) + b * fx
  let v1 := c * (1 - fx) + d * fx
  v0 * (1 - fy) + v1 * fy

/-- Checked division: `none` models the C double division by zero, whose
`NaN`/`inf` result feeds `(int)floor(...)` (undefined behavior). -/
def qdiv (a b : ℚ) : Option ℚ := if b = 0 then none else some (a / b)

/-- `resample_bilinear` (geo.c) with its two divisions checked: geo.c divides
by `(double)(H - 1)` and `(double)(W - 1)` with no guard, so an output cell
is well-defined only when both denominators are nonzero. -/
def resampleCellChecked (src : ℕ → ℚ) (P W H x y : ℕ) : Option ℚ :=
  match qdiv ((y : ℚ) * ((P : ℚ) - 1)) ((H : ℚ) - 1),
        qdiv ((x : ℚ) * ((P : ℚ) - 1)) ((W : ℚ) - 1) with
  | some _, some _ => some (resampleCellV src P W H x y)
  | _, _ => none

end Geo

namespace Plasma

/-- `get_src` (plasma.c, lines 97-106): clamped access into the `n × n`
square grid. -/
def get_src (src : ℕ → ℚ) (n : ℕ) (x y : ℤ) : ℚ :=
  let cx : ℤ := if x < 0 then 0 else if (n : ℤ) ≤ x then (n : ℤ) - 1 else x
  let cy : ℤ := if y < 0 then 0 else if (n : ℤ) ≤ y then (n : ℤ) - 1 else y
  src (cy.toNat * n + cx.toNat)

/-- The guarded denominator `(W > 1) ? (double)(W - 1) : 1.0` of
plasma.c's `resample_bilinear`. -/
def denomOf (W : ℕ) : ℚ := if 1 < W then (W : ℚ) - 1 else 1

/-- One output cell of `resample_bilinear` (plasma.c, lines 167-192):
same bilinear scheme as geo.c but with guarded denominators and
clamped `get_src` reads. -/
def resampleCellV (src : ℕ → ℚ) (n W H x y : ℕ) : ℚ :=
  let v : ℚ := (y : ℚ) * ((n : ℚ) - 1) / denomOf H
  let v0 : ℤ := ⌊v⌋
  let v1 : ℤ := if (n : ℤ) ≤ v0 + 1 then (n : ℤ) - 1 else v0 + 1
  let fy : ℚ := v - (v0 : ℚ)
  let u : ℚ := (x : ℚ) * ((n : ℚ) - 1) / denomOf W
  let u0 : ℤ := ⌊u⌋
  let u1 : ℤ := if (n : ℤ) ≤ u0 + 1 then (n : ℤ) - 1 else u0 + 1
  let fx : ℚ := u - (u0 : ℚ)
  let p00 := get_src src n u0 v0
  let p10 := get_src src n u1 v0
  let p01 := get_src src n u0 v1
  let p11 := get_src src n u1 v1
  let a := p00 * (1 - fx) + p10 * fx
  let b := p01 * (1 - fx) + p11 * fx
  a * (1 - fy) + b * fy

/-- plasma.c's `resample_bilinear` with its divisions checked (they divide
by `denomOf`, never by `W-1` or `H-1` directly). -/
def resampleCellChecked (src : ℕ → ℚ) (n W H x y : ℕ) : Option ℚ :=
  match Geo.qdiv ((y : ℚ) * ((n : ℚ) - 1)) (denomOf H),
        Geo.qdiv ((x : ℚ) * ((n : ℚ) - 1)) (denomOf W) with
  | some _, some _ => some (resampleCellV src n W H x y)
  | _, _ => none

theorem denomOf_ne_zero (W : ℕ) : denomOf W ≠ 0 := by
  unfold denomOf
  split
  · have h2 : (2 : ℚ) ≤ (W : ℚ) := by exact_mod_cast ‹1 < W›
    intro h
    linarith
  · norm_num

end Plasma

/-- CLAIM C5: resampling a square source grid of side `P` to output
dimensions `W = P`, `H = P` reproduces the source exactly at every integer
coordinate, for both the geo.c and the plasma.c bilinear resampler. -/
theorem C5_resample_identity_at_source_size (src : ℕ → ℚ) (P x y : ℕ)
    (hP : 2 ≤ P) (hx : x < P) (hy : y < P) :
    Geo.resampleCellV src P P P x y = src (y * P + x) ∧
    Plasma.resampleCellV src P P P x y = src (y * P + x) := by
  have h2 : (2 : ℚ) ≤ (P : ℚ) := by exact_mod_cast hP
  have hPQ : (P : ℚ) - 1 ≠ 0 := by linarith
  have hu : ∀ z : ℕ, (z : ℚ) * ((P : ℚ) - 1) / ((P : ℚ) - 1) = (z : ℚ) :=
    fun z => mul_div_cancel_right₀ _ hPQ
  have hd : Plasma.denomOf P = (P : ℚ) - 1 := by
    rw [Plasma.denomOf, if_pos (by omega : 1 < P)]
  have hxneg : ¬((x : ℤ) < 0) := by simp
  have hyneg : ¬((y : ℤ) < 0) := by simp
  have hxlt : ¬((P : ℤ) ≤ (x : ℤ)) := by exact_mod_cast not_le.mpr hx
  have hylt : ¬((P : ℤ) ≤ (y : ℤ)) := by exact_mod_cast not_le.mpr hy
  constructor
  · simp [Geo.resampleCellV, hu, Int.floor_natCast]
  · simp [Plasma.resampleCellV, hd, hu, Int.floor_natCast, Plasma.get_src,
      hxneg, hyneg, hxlt, hylt]

/-- Witness for C5: concrete application at `P = 3`, `(x, y) = (1, 2)`. -/
theorem C5_resample_identity_at_source_size_witness :
    2 ≤ 3 ∧ 1 < 3 ∧ 2 < 3 ∧
      (Geo.resampleCellV (fun i => (i : ℚ) / 9) 3 3 3 1 2 = (7 : ℚ) / 9 ∧
       Plasma.resampleCellV (fun i => (i : ℚ) / 9) 3 3 3 1 2 = (7 : ℚ) / 9) :=
  ⟨by norm_num, by norm_num, by norm_num, by
    have h := C5_resample_identity_at_source_size (fun i => (i : ℚ) / 9) 3 1 2
      (by norm_num) (by norm_num) (by norm_num)
    norm_num at h
    exact_mod_cast h⟩

namespace Iso

/-- `clamp8` (iso.c): clamp an int to `0..255`. -/
def clamp8 (v : ℤ) : ℤ := if v < 0 then 0 else if 255 < v then 255 else v

/-- A framebuffer pixel is inside the `W × H` image. -/
def inFB (W H : ℤ) (p : ℤ × ℤ) : Prop :=
  0 ≤ p.1 ∧ p.1 < W ∧ 0 ≤ p.2 ∧ p.2 < H

instance (W H : ℤ) (p : ℤ × ℤ) : Decidable (inFB W H p) := by
  unfold inFB
  infer_instance

/-- `put_px` (iso.c, lines 105-112): bounds-checked single pixel write with
channel clamping; the framebuffer is a total function from coordinates to
RGB triples. -/
def put_px (W H : ℤ) (fb : ℤ × ℤ → ℤ × ℤ × ℤ) (x y r g b : ℤ) :
    ℤ × ℤ → ℤ × ℤ × ℤ :=
  if x < 0 ∨ y < 0 ∨ W ≤ x ∨ H ≤ y then fb
  else fun p => if p = (x, y) then (clamp8 r, clamp8 g, clamp8 b) else fb p

/-- `n` consecutive integers starting at `s`. -/
def intRangeAux : ℕ → ℤ → List ℤ
  | 0, _ => []
  | n + 1, s => s :: intRangeAux n (s + 1)

/-- The inclusive integer range `lo..hi` of a C `for (v = lo; v <= hi; ++v)`
loop (empty when `hi < lo`). -/
def intRange (lo hi : ℤ) : List ℤ := intRangeAux (hi + 1 - lo).toNat lo

theorem mem_intRangeAux : ∀ (n : ℕ) (s a : ℤ),
    a ∈ intRangeAux n s ↔ s ≤ a ∧ a < s + n := by
  intro n
  induction n with
  | zero => intro s a; simp [intRangeAux]
  | succ m ih =>
      intro s a
      simp only [intRangeAux, List.mem_cons, ih (s + 1) a]
      omega

/-- The three edge functions `w0, w1, w2` of `fill_tri` (iso.c, lines
134-143) evaluated at pixel `(x, y)`:
`w0 = (x-x1)*A12 + (y-y1)*B12` etc., with `A01 = y0-y1`, `B01 = x1-x0`,
`A12 = y1-y2`, `B12 = x2-x1`, `A20 = y2-y0`, `B20 = x0-x2`. -/
def edges (x0 y0 x1 y1 x2 y2 x y : ℤ) : ℤ × ℤ × ℤ :=
  ((x - x1) * (y1 - y2) + (y - y1) * (x2 - x1),
   (x - x2) * (y2 - y0) + (y - y2) * (x0 - x2),
   (x - x0) * (y0 - y1) + (y - y0) * (x1 - x0))

/-- The `fill_tri` inside test: all three edge functions `>= 0`, or all
three `<= 0`. -/
def sameSign (w : ℤ × ℤ × ℤ) : Prop :=
  (0 ≤ w.1 ∧ 0 ≤ w.2.1 ∧ 0 ≤ w.2.2) ∨ (w.1 ≤ 0 ∧ w.2.1 ≤ 0 ∧ w.2.2 ≤ 0)

instance (w : ℤ × ℤ × ℤ) : Decidable (sameSign w) := by
  unfold sameSign
  infer_instance

/-- `fill_tri` (iso.c, lines 115-152): loop over the triangle bounding box
clipped to the framebuffer, writing every pixel whose three edge functions
share a sign. -/
def fill_tri (W H : ℤ) (fb : ℤ × ℤ → ℤ × ℤ × ℤ)
    (x0 y0 x1 y1 x2 y2 r g b : ℤ) : ℤ × ℤ → ℤ × ℤ × ℤ :=
  let minx := max 0 (min x0 (min x1 x2))
  let maxx := min (W - 1) (max x0 (max x1 x2))
  let miny := max 0 (min y0 (min y1 y2))
  let maxy := min (H - 1) (max y0 (max y1 y2))
  (intRange miny maxy).foldl
    (fun fb y =>
      (intRange minx maxx).foldl
        (fun fb x =>
          if sameSign (edges x0 y0 x1 y1 x2 y2 x y)
          then put_px W H fb x y r g b
          else fb)
        fb)
    fb

theorem mem_intRange {lo hi a : ℤ} : a ∈ intRange lo hi ↔ lo ≤ a ∧ a ≤ hi := by
  unfold intRange
  rw [mem_intRangeAux]
  omega

end Iso

namespace Iso

theorem row_fold_spec (W H x0 y0 x1 y1 x2 y2 r g b y : ℤ) :
    ∀ (xs : List ℤ) (fb : ℤ × ℤ → ℤ × ℤ × ℤ) (p : ℤ × ℤ),
      (xs.foldl
        (fun fb x =>
          if sameSign (edges x0 y0 x1 y1 x2 y2 x y)
          then put_px W H fb x y r g b
          else fb)
        fb) p
      = if p.1 ∈ xs ∧ p.2 = y ∧ sameSign (edges x0 y0 x1 y1 x2 y2 p.1 p.2)
            ∧ inFB W H p
        then (clamp8 r, clamp8 g, clamp8 b)
        else fb p := by
  intro xs
  induction xs with
  | nil => intro fb p; simp
  | cons a t ih =>
      intro fb p
      rw [List.foldl_cons, ih]
      by_cases hmem : p.1 ∈ t ∧ p.2 = y
          ∧ sameSign (edges x0 y0 x1 y1 x2 y2 p.1 p.2) ∧ inFB W H p
      · rw [if_pos hmem, if_pos
          ⟨List.mem_cons_of_mem _ hmem.1, hmem.2.1, hmem.2.2.1, hmem.2.2.2⟩]
      · rw [if_neg hmem]
        by_cases hall : p.1 ∈ a :: t ∧ p.2 = y
            ∧ sameSign (edges x0 y0 x1 y1 x2 y2 p.1 p.2) ∧ inFB W H p
        · rw [if_pos hall]
          obtain ⟨hm, hpy, hss, hfb⟩ := hall
          have hpa : p.1 = a := by
            rcases List.mem_cons.mp hm with h | h
            · exact h
            · exact absurd ⟨h, hpy, hss, hfb⟩ hmem
          have hp : p = (a, y) := by
            cases p
            simp_all
          subst hp
          have hss' : sameSign (edges x0 y0 x1 y1 x2 y2 a y) := hss
          have hfb' : 0 ≤ a ∧ a < W ∧ 0 ≤ y ∧ y < H := hfb
          rw [if_pos hss']
          unfold put_px
          rw [if_neg (show ¬(a < 0 ∨ y < 0 ∨ W ≤ a ∨ H ≤ y) by omega)]
          simp
        · rw [if_neg hall]
          by_cases hc : sameSign (edges x0 y0 x1 y1 x2 y2 a y)
          · rw [if_pos hc]
            unfold put_px
            by_cases hb : a < 0 ∨ y < 0 ∨ W ≤ a ∨ H ≤ y
            · rw [if_pos hb]
            · rw [if_neg hb]
              have hne : p ≠ (a, y) := by
                rintro rfl
                exact hall ⟨List.mem_cons_self _ _, rfl, hc,
                  show 0 ≤ a ∧ a < W ∧ 0 ≤ y ∧ y < H by omega⟩
              simp [hne]
          · rw [if_neg hc]

theorem tri_fold_spec (W H x0 y0 x1 y1 x2 y2 r g b minx maxx : ℤ) :
    ∀ (ys : List ℤ) (fb : ℤ × ℤ → ℤ × ℤ × ℤ) (p : ℤ × ℤ),
      (ys.foldl
        (fun fb y =>
          (intRange minx maxx).foldl
            (fun fb x =>
              if sameSign (edges x0 y0 x1 y1 x2 y2 x y)
              then put_px W H fb x y r g b
              else fb)
            fb)
        fb) p
      = if p.2 ∈ ys ∧ (minx ≤ p.1 ∧ p.1 ≤ maxx)
            ∧ sameSign (edges x0 y0 x1 y1 x2 y2 p.1 p.2) ∧ inFB W H p
        then (clamp8 r, clamp8 g, clamp8 b)
        else fb p := by
  intro ys
  induction ys with
  | nil => intro fb p; simp
  | cons a t ih =>
      intro fb p
      rw [List.foldl_cons, ih, row_fold_spec W H x0 y0 x1 y1 x2 y2 r g b a
        (intRange minx maxx) fb p]
      by_cases hmem : p.2 ∈ t ∧ (minx ≤ p.1 ∧ p.1 ≤ maxx)
          ∧ sameSign (edges x0 y0 x1 y1 x2 y2 p.1 p.2) ∧ inFB W H p
      · rw [if_pos hmem, if_pos
          ⟨List.mem_cons_of_mem _ hmem.1, hmem.2.1, hmem.2.2.1, hmem.2.2.2⟩]
      · rw [if_neg hmem]
        by_cases hall : p.2 ∈ a :: t ∧ (minx ≤ p.1 ∧ p.1 ≤ maxx)
            ∧ sameSign (edges x0 y0 x1 y1 x2 y2 p.1 p.2) ∧ inFB W H p
        · rw [if_pos hall]
          obtain ⟨hm, hbox, hss, hfb⟩ := hall
          have hpa : p.2 = a := by
            rcases List.mem_cons.mp hm with h | h
            · exact h
            · exact absurd ⟨h, hbox, hss, hfb⟩ hmem
          rw [if_pos ⟨mem_intRange.mpr hbox, hpa, hss, hfb⟩]
        · rw [if_neg hall]
          by_cases hrow : p.1 ∈ intRange minx maxx ∧ p.2 = a
              ∧ sameSign (edges x0 y0 x1 y1 x2 y2 p.1 p.2) ∧ inFB W H p
          · exact absurd ⟨by rw [hrow.2.1]; exact List.mem_cons_self a t,
              mem_intRange.mp hrow.1, hrow.2.2.1, hrow.2.2.2⟩ hall
          · rw [if_neg hrow]

/-- CLAIM C9: `fill_tri` writes exactly the pixels inside the triangle's
bounding box clipped to the framebuffer for which all three edge functions
share a sign (zeros allowed), with the clamped fill color; every other
pixel of the framebuffer, in particular every pixel outside it, keeps its
previous value. -/
theorem C9_fill_tri_writes_exactly_inside_pixels
    (W H x0 y0 x1 y1 x2 y2 r g b : ℤ)
    (fb : ℤ × ℤ → ℤ × ℤ × ℤ) (p : ℤ × ℤ) :
    fill_tri W H fb x0 y0 x1 y1 x2 y2 r g b p =
      if max 0 (min x0 (min x1 x2)) ≤ p.1
          ∧ p.1 ≤ min (W - 1) (max x0 (max x1 x2))
          ∧ max 0 (min y0 (min y1 y2)) ≤ p.2
          ∧ p.2 ≤ min (H - 1) (max y0 (max y1 y2))
          ∧ sameSign (edges x0 y0 x1 y1 x2 y2 p.1 p.2)
      then (clamp8 r, clamp8 g, clamp8 b)
      else fb p := by
  simp only [fill_tri]
  rw [tri_fold_spec W H x0 y0 x1 y1 x2 y2 r g b _ _ (intRange _ _) fb p]
  simp only [mem_intRange]
  refine if_congr ?_ rfl rfl
  constructor
  · rintro ⟨⟨hy1, hy2⟩, ⟨hx1, hx2⟩, hss, -⟩
    exact ⟨hx1, hx2, hy1, hy2, hss⟩
  · rintro ⟨hx1, hx2, hy1, hy2, hss⟩
    refine ⟨⟨hy1, hy2⟩, ⟨hx1, hx2⟩, hss, ?_⟩
    unfold inFB
    omega

end Iso

namespace Geo

def nbrs (W H : ℕ) (c : ℕ × ℕ) : List (ℕ × ℕ) :=
  (([((c.1 : ℤ) + 1, (c.2 : ℤ)), ((c.1 : ℤ) - 1, (c.2 : ℤ)),
     ((c.1 : ℤ), (c.2 : ℤ) + 1), ((c.1 : ℤ), (c.2 : ℤ) - 1)]).filter
    (fun q => !(decide (q.1 < 0) || decide (q.2 < 0) ||
                decide ((W : ℤ) ≤ q.1) || decide ((H : ℤ) ≤ q.2)))).map
    (fun q => (q.1.toNat, q.2.toNat))

theorem mem_nbrs {W H : ℕ} {c q : ℕ × ℕ} :
    q ∈ nbrs W H c ↔ q.1 < W ∧ q.2 < H ∧
      ((q.1 = c.1 + 1 ∧ q.2 = c.2) ∨ (q.1 + 1 = c.1 ∧ q.2 = c.2) ∨
       (q.1 = c.1 ∧ q.2 = c.2 + 1) ∨ (q.1 = c.1 ∧ q.2 + 1 = c.2)) := by
  obtain ⟨qx, qy⟩ := q
  obtain ⟨cx, cy⟩ := c
  simp only [nbrs, List.mem_map, List.mem_filter, List.mem_cons,
    List.not_mem_nil, or_false, Bool.not_eq_true',
    Bool.or_eq_false_iff, decide_eq_false_iff_not, not_lt, not_le,
    Prod.mk.injEq]
  constructor
  · rintro ⟨⟨ax, ay⟩, ⟨hmem, hb⟩, hqx, hqy⟩
    simp only at hb hqx hqy
    rcases hmem with ⟨h1, h2⟩ | ⟨h1, h2⟩ | ⟨h1, h2⟩ | ⟨h1, h2⟩ <;> omega
  · rintro ⟨hqw, hqh, hcase⟩
    rcases hcase with ⟨h1, h2⟩ | ⟨h1, h2⟩ | ⟨h1, h2⟩ | ⟨h1, h2⟩
    · refine ⟨((cx : ℤ) + 1, (cy : ℤ)), ⟨Or.inl rfl, ?_⟩, ?_, ?_⟩ <;> omega
    · refine ⟨((cx : ℤ) - 1, (cy : ℤ)), ⟨Or.inr (Or.inl rfl), ?_⟩, ?_, ?_⟩ <;> omega
    · refine ⟨((cx : ℤ), (cy : ℤ) + 1), ⟨Or.inr (Or.inr (Or.inl rfl)), ?_⟩, ?_, ?_⟩ <;> omega
    · refine ⟨((cx : ℤ), (cy : ℤ) - 1), ⟨Or.inr (Or.inr (Or.inr rfl)), ?_⟩, ?_, ?_⟩ <;> omega

def cells (W H : ℕ) : Finset (ℕ × ℕ) := Finset.range W ×ˢ Finset.range H

theorem nbrs_subset_cells {W H : ℕ} {c q : ℕ × ℕ} (h : q ∈ nbrs W H c) :
    q ∈ cells W H := by
  rw [mem_nbrs] at h
  simp only [cells, Finset.mem_product, Finset.mem_range]
  exact ⟨h.1, h.2.1⟩

/-- The BFS loop of geo.c's flood (lines 230-252): pop the head, mask and
enqueue every in-bounds, not-yet-masked 4-neighbor at or below the level.
The mask is the `Finset`, the FIFO queue the `List`.  geo.c's queues are
fixed `int queue_x[W*H]` buffers and the write cursor `qt` only grows, so
this list model describes the program exactly on the runs whose total
enqueue count fits in `W*H` — the capacity is made explicit by
`floodEnqueues` and `flood_from_edges_or_seed_checked` below. -/
def floodBFS (h : ℕ → ℕ → ℚ) (W H : ℕ) (level : ℚ) :
    Finset (ℕ × ℕ) → List (ℕ × ℕ) → Finset (ℕ × ℕ)
  | M, [] => M
  | M, c :: rest =>
      floodBFS h W H level
        (M ∪ ((nbrs W H c).filter
          (fun q => decide (q ∉ M) && decide (h q.2 q.1 ≤ level))).toFinset)
        (rest ++ (nbrs W H c).filter
          (fun q => decide (q ∉ M) && decide (h q.2 q.1 ≤ level)))
termination_by M queue => ((cells W H \ M).card, queue.length)
decreasing_by
  rcases hns : (nbrs W H c).filter
      (fun q => decide (q ∉ M) && decide (h q.2 q.1 ≤ level)) with - | ⟨q, ns'⟩
  · simp only [List.toFinset_nil, Finset.union_empty, List.append_nil]
    exact Prod.Lex.right _ (by simp)
  · apply Prod.Lex.left
    apply Finset.card_lt_card
    constructor
    · intro p hp
      simp only [Finset.mem_sdiff] at hp ⊢
      refine ⟨hp.1, fun hm => hp.2 (Finset.mem_union_left _ hm)⟩
    · intro hsub
      have hq : q ∈ (q :: ns').toFinset := by simp
      have hqn : q ∈ nbrs W H c ∧ (decide (q ∉ M) && decide (h q.2 q.1 ≤ level)) = true := by
        have : q ∈ (nbrs W H c).filter
            (fun q => decide (q ∉ M) && decide (h q.2 q.1 ≤ level)) := by
          rw [hns]; simp
        exact List.mem_filter.mp this
      have hqM : q ∉ M := by
        have := hqn.2
        simp only [Bool.and_eq_true, decide_eq_true_eq] at this
        exact this.1
      have hqc : q ∈ cells W H := nbrs_subset_cells hqn.1
      have h1 : q ∈ cells W H \ M := Finset.mem_sdiff.mpr ⟨hqc, hqM⟩
      have h2 := hsub h1
      simp only [Finset.mem_sdiff, Finset.mem_union] at h2
      exact h2.2 (Or.inr hq)


theorem floodBFS_sound (h : ℕ → ℕ → ℚ) (W H : ℕ) (level : ℚ)
    (R : ℕ × ℕ → Prop)
    (hstep : ∀ c q, R c → q ∈ nbrs W H c → h q.2 q.1 ≤ level → R q) :
    ∀ (M : Finset (ℕ × ℕ)) (queue : List (ℕ × ℕ)),
      (∀ c ∈ M, R c) → (∀ c ∈ queue, c ∈ M) →
      ∀ c ∈ floodBFS h W H level M queue, R c := by
  intro M queue
  induction M, queue using floodBFS.induct h W H level with
  | case1 M =>
      intro hM _ c hc
      rw [floodBFS] at hc
      exact hM c hc
  | case2 M c rest ih =>
      intro hM hQ d hd
      rw [floodBFS] at hd
      refine ih ?_ ?_ d hd
      · intro e he
        rcases Finset.mem_union.mp he with he | he
        · exact hM e he
        · rw [List.mem_toFinset, List.mem_filter] at he
          obtain ⟨hen, hcond⟩ := he
          simp only [Bool.and_eq_true, decide_eq_true_eq] at hcond
          exact hstep c e (hM c (hQ c (List.mem_cons_self c rest))) hen hcond.2
      · intro e he
        rcases List.mem_append.mp he with he | he
        · exact Finset.mem_union_left _ (hQ e (List.mem_cons_of_mem _ he))
        · exact Finset.mem_union_right _ (List.mem_toFinset.mpr he)

theorem floodBFS_mono (h : ℕ → ℕ → ℚ) (W H : ℕ) (level : ℚ) :
    ∀ (M : Finset (ℕ × ℕ)) (queue : List (ℕ × ℕ)),
      M ⊆ floodBFS h W H level M queue := by
  intro M queue
  induction M, queue using floodBFS.induct h W H level with
  | case1 M => rw [floodBFS]
  | case2 M c rest ih =>
      rw [floodBFS]
      exact fun x hx => ih (Finset.mem_union_left _ hx)

theorem floodBFS_closed (h : ℕ → ℕ → ℚ) (W H : ℕ) (level : ℚ) :
    ∀ (M : Finset (ℕ × ℕ)) (queue : List (ℕ × ℕ)),
      (∀ p ∈ M, p ∈ queue ∨ ∀ q ∈ nbrs W H p, h q.2 q.1 ≤ level → q ∈ M) →
      ∀ p ∈ floodBFS h W H level M queue, ∀ q ∈ nbrs W H p,
        h q.2 q.1 ≤ level → q ∈ floodBFS h W H level M queue := by
  intro M queue
  induction M, queue using floodBFS.induct h W H level with
  | case1 M =>
      intro hinv p hp q hq hlev
      rw [floodBFS] at hp ⊢
      rcases hinv p hp with hfalse | hcl
      · exact absurd hfalse (List.not_mem_nil p)
      · exact hcl q hq hlev
  | case2 M c rest ih =>
      intro hinv
      rw [floodBFS]
      apply ih
      intro p hp
      rcases Finset.mem_union.mp hp with hpM | hpns
      · rcases hinv p hpM with hq | hcl
        · rcases List.mem_cons.mp hq with heq | hq
          · subst heq
            refine Or.inr (fun q hqn hql => ?_)
            by_cases hqM : q ∈ M
            · exact Finset.mem_union_left _ hqM
            · refine Finset.mem_union_right _
                (List.mem_toFinset.mpr (List.mem_filter.mpr ⟨hqn, ?_⟩))
              simp only [Bool.and_eq_true, decide_eq_true_eq]
              exact ⟨hqM, hql⟩
          · exact Or.inl (List.mem_append_left _ hq)
        · exact Or.inr (fun q hqn hql => Finset.mem_union_left _ (hcl q hqn hql))
      · exact Or.inl (List.mem_append_right _ (List.mem_toFinset.mp hpns))

def edgeSeeds (h : ℕ → ℕ → ℚ) (W H : ℕ) (level : ℚ) : List (ℕ × ℕ) :=
  ((List.range W).map (fun x =>
      (if h 0 x ≤ level then [(x, 0)] else []) ++
      (if h (H - 1) x ≤ level then [(x, H - 1)] else []))).flatten ++
  ((List.range H).map (fun y =>
      (if h y 0 ≤ level then [(0, y)] else []) ++
      (if h y (W - 1) ≤ level then [(W - 1, y)] else []))).flatten

def IsBorder (W H : ℕ) (c : ℕ × ℕ) : Prop :=
  c.1 < W ∧ c.2 < H ∧ (c.1 = 0 ∨ c.1 = W - 1 ∨ c.2 = 0 ∨ c.2 = H - 1)

theorem mem_edgeSeeds {h : ℕ → ℕ → ℚ} {W H : ℕ} {level : ℚ} {c : ℕ × ℕ}
    (hW : 0 < W) (hH : 0 < H) :
    c ∈ edgeSeeds h W H level ↔ IsBorder W H c ∧ h c.2 c.1 ≤ level := by
  obtain ⟨cx, cy⟩ := c
  simp only [edgeSeeds, List.mem_append, List.mem_flatten, List.mem_map,
    List.mem_range, IsBorder]
  constructor
  · rintro (⟨blk, ⟨x, hx, rfl⟩, hc⟩ | ⟨blk, ⟨y, hy, rfl⟩, hc⟩)
    · rcases List.mem_append.mp hc with hc | hc
      · split at hc
        · simp only [List.mem_singleton, Prod.mk.injEq] at hc
          obtain ⟨rfl, rfl⟩ := hc
          exact ⟨⟨hx, hH, by omega⟩, by assumption⟩
        · exact absurd hc (List.not_mem_nil _)
      · split at hc
        · simp only [List.mem_singleton, Prod.mk.injEq] at hc
          obtain ⟨rfl, rfl⟩ := hc
          exact ⟨⟨hx, by omega, by omega⟩, by assumption⟩
        · exact absurd hc (List.not_mem_nil _)
    · rcases List.mem_append.mp hc with hc | hc
      · split at hc
        · simp only [List.mem_singleton, Prod.mk.injEq] at hc
          obtain ⟨rfl, rfl⟩ := hc
          exact ⟨⟨hW, hy, by omega⟩, by assumption⟩
        · exact absurd hc (List.not_mem_nil _)
      · split at hc
        · simp only [List.mem_singleton, Prod.mk.injEq] at hc
          obtain ⟨rfl, rfl⟩ := hc
          exact ⟨⟨by omega, hy, by omega⟩, by assumption⟩
        · exact absurd hc (List.not_mem_nil _)
  · rintro ⟨⟨hxW, hyH, hb⟩, hlev⟩
    rcases hb with hb | hb | hb | hb
    · refine Or.inr ⟨_, ⟨cy, hyH, rfl⟩, ?_⟩
      apply List.mem_append_left
      subst hb
      rw [if_pos hlev]
      exact List.mem_singleton.mpr rfl
    · refine Or.inr ⟨_, ⟨cy, hyH, rfl⟩, ?_⟩
      apply List.mem_append_right
      subst hb
      rw [if_pos hlev]
      exact List.mem_singleton.mpr rfl
    · refine Or.inl ⟨_, ⟨cx, hxW, rfl⟩, ?_⟩
      apply List.mem_append_left
      subst hb
      rw [if_pos hlev]
      exact List.mem_singleton.mpr rfl
    · refine Or.inl ⟨_, ⟨cx, hxW, rfl⟩, ?_⟩
      apply List.mem_append_right
      subst hb
      rw [if_pos hlev]
      exact List.mem_singleton.mpr rfl

def clampSeed (W H : ℕ) (sx sy : ℤ) : ℕ × ℕ :=
  let cx : ℤ := if sx < 0 then 0 else if (W : ℤ) ≤ sx then (W : ℤ) - 1 else sx
  let cy : ℤ := if sy < 0 then 0 else if (H : ℤ) ≤ sy then (H : ℤ) - 1 else sy
  (cx.toNat, cy.toNat)

theorem clampSeed_mem {W H : ℕ} (hW : 0 < W) (hH : 0 < H) (sx sy : ℤ) :
    (clampSeed W H sx sy).1 < W ∧ (clampSeed W H sx sy).2 < H := by
  simp only [clampSeed]
  constructor
  · split
    · omega
    · split <;> omega
  · split
    · omega
    · split <;> omega

/-- `flood_from_edges_or_seed` (geo.c, lines 192-254) without the queue
capacity: zeroed mask, border seeding in C scan order (rows 0 and H-1 per
x, then columns 0 and W-1 per y — no mask check, so corners repeat in
`q0`), the optional clamped seed (mask-checked), then the BFS.  This is
the mask of a run that never writes past the `W*H`-slot queues; the
capacity is made explicit by `flood_from_edges_or_seed_checked` below. -/
def flood_from_edges_or_seed (h : ℕ → ℕ → ℚ) (W H : ℕ) (level : ℚ)
    (from_edge : Bool) (seed : Option (ℤ × ℤ)) : Finset (ℕ × ℕ) :=
  let q0 : List (ℕ × ℕ) := if from_edge then edgeSeeds h W H level else []
  let m0 : Finset (ℕ × ℕ) := q0.toFinset
  let q1 : List (ℕ × ℕ) :=
    match seed with
    | none => []
    | some (sx, sy) =>
        let s := clampSeed W H sx sy
        if h s.2 s.1 ≤ level ∧ s ∉ m0 then [s] else []
  floodBFS h W H level (m0 ∪ q1.toFinset) (q0 ++ q1)

def mark_all_below (h : ℕ → ℕ → ℚ) (W H : ℕ) (level : ℚ) : Finset (ℕ × ℕ) :=
  (cells W H).filter (fun c => h c.2 c.1 ≤ level)

inductive Policy where
  | EdgeFlood
  | FillAll

def classify_water (h : ℕ → ℕ → ℚ) (W H : ℕ) (level : ℚ)
    (policy : Policy) (seed : Option (ℤ × ℤ)) : Finset (ℕ × ℕ) :=
  match policy with
  | .EdgeFlood => flood_from_edges_or_seed h W H level true seed
  | .FillAll => mark_all_below h W H level

def IsSource (h : ℕ → ℕ → ℚ) (W H : ℕ) (level : ℚ) (seed : Option (ℤ × ℤ))
    (c : ℕ × ℕ) : Prop :=
  (IsBorder W H c ∧ h c.2 c.1 ≤ level) ∨
  (∃ sx sy, seed = some (sx, sy) ∧ c = clampSeed W H sx sy ∧ h c.2 c.1 ≤ level)

inductive Reach (h : ℕ → ℕ → ℚ) (W H : ℕ) (level : ℚ)
    (seed : Option (ℤ × ℤ)) : ℕ × ℕ → Prop where
  | source (c : ℕ × ℕ) : IsSource h W H level seed c → Reach h W H level seed c
  | step (c q : ℕ × ℕ) : Reach h W H level seed c → q ∈ nbrs W H c →
      h q.2 q.1 ≤ level → Reach h W H level seed q

theorem reach_le_level {h : ℕ → ℕ → ℚ} {W H : ℕ} {level : ℚ}
    {seed : Option (ℤ × ℤ)} {c : ℕ × ℕ}
    (hr : Reach h W H level seed c) : h c.2 c.1 ≤ level := by
  induction hr with
  | source c hs => rcases hs with ⟨-, hl⟩ | ⟨-, -, -, -, hl⟩ <;> exact hl
  | step c q hc hqn hql ih => exact hql

/-- The BFS characterization at the model level (list queue, no capacity):
a cell is masked iff it is at or below the level and reachable.  geo.c's
queues hold only `W*H` slots, so this describes the program only on runs
whose total number of enqueues fits — see `floodEnqueues` below. -/
theorem edgeflood_marks_iff_reachable_model (h : ℕ → ℕ → ℚ) (W H : ℕ)
    (level : ℚ) (seed : Option (ℤ × ℤ)) (hW : 0 < W) (hH : 0 < H)
    (c : ℕ × ℕ) :
    c ∈ classify_water h W H level .EdgeFlood seed ↔
      h c.2 c.1 ≤ level ∧ Reach h W H level seed c := by
  have hq1 : ∀ d ∈ (match seed with
      | none => ([] : List (ℕ × ℕ))
      | some (sx, sy) =>
          let s := clampSeed W H sx sy
          if h s.2 s.1 ≤ level ∧ s ∉ (edgeSeeds h W H level).toFinset
          then [s] else []),
      IsSource h W H level seed d := by
    intro d hd
    match hseed : seed with
    | none => rw [hseed] at hd; exact absurd hd (List.not_mem_nil d)
    | some (sx, sy) =>
        rw [hseed] at hd
        simp only at hd
        split at hd
        · rw [List.mem_singleton] at hd
          subst hd
          exact Or.inr ⟨sx, sy, rfl, rfl, by tauto⟩
        · exact absurd hd (List.not_mem_nil d)
  constructor
  · intro hc
    have hreach : Reach h W H level seed c := by
      refine floodBFS_sound h W H level (Reach h W H level seed)
        (fun a b => Reach.step a b) _ _ ?_ ?_ c hc
      · intro e he
        rcases Finset.mem_union.mp he with he | he
        · rw [List.mem_toFinset] at he
          exact Reach.source e (Or.inl ((mem_edgeSeeds hW hH).mp he))
        · rw [List.mem_toFinset] at he
          exact Reach.source e (hq1 e he)
      · intro e he
        rcases List.mem_append.mp he with he | he
        · exact Finset.mem_union_left _ (List.mem_toFinset.mpr he)
        · exact Finset.mem_union_right _ (List.mem_toFinset.mpr he)
    exact ⟨reach_le_level hreach, hreach⟩
  · rintro ⟨-, hr⟩
    induction hr with
    | source d hs =>
        apply floodBFS_mono
        rcases hs with ⟨hb, hl⟩ | ⟨sx, sy, hseed, hcl, hl⟩
        · exact Finset.mem_union_left _
            (List.mem_toFinset.mpr ((mem_edgeSeeds hW hH).mpr ⟨hb, hl⟩))
        · subst hseed
          by_cases hm : d ∈ (edgeSeeds h W H level).toFinset
          · exact Finset.mem_union_left _ hm
          · apply Finset.mem_union_right
            simp only
            rw [if_pos ⟨by rw [← hcl] at *; exact hl, by rwa [← hcl]⟩]
            rw [List.mem_toFinset, List.mem_singleton]
            exact hcl
    | step d q hd hqn hql ih =>
        exact floodBFS_closed h W H level _ _
          (fun p hp => Or.inl (by
            rcases Finset.mem_union.mp hp with hp | hp
            · exact List.mem_append_left _ (List.mem_toFinset.mp hp)
            · exact List.mem_append_right _ (List.mem_toFinset.mp hp)))
          d ih q hqn hql


theorem isSource_spec {h : ℕ → ℕ → ℚ} {W H : ℕ} {level : ℚ}
    {seed : Option (ℤ × ℤ)} {d : ℕ × ℕ} (hW : 0 < W) (hH : 0 < H)
    (hs : IsSource h W H level seed d) :
    d ∈ cells W H ∧ h d.2 d.1 ≤ level := by
  rcases hs with ⟨hb, hl⟩ | ⟨sx, sy, -, rfl, hl⟩
  · refine ⟨?_, hl⟩
    simp only [cells, Finset.mem_product, Finset.mem_range]
    exact ⟨hb.1, hb.2.1⟩
  · obtain ⟨h1, h2⟩ := clampSeed_mem hW hH sx sy
    refine ⟨?_, hl⟩
    simp only [cells, Finset.mem_product, Finset.mem_range]
    exact ⟨h1, h2⟩

/-- The subset property at the model level: every cell the model's
EdgeFlood marks is in bounds and at or below the level, hence FillAll
marks it too. -/
theorem edgeflood_subset_fillall_model (h : ℕ → ℕ → ℚ) (W H : ℕ)
    (level : ℚ) (seed : Option (ℤ × ℤ)) (hW : 0 < W) (hH : 0 < H)
    (c : ℕ × ℕ) :
    c ∈ classify_water h W H level .EdgeFlood seed →
    c ∈ classify_water h W H level .FillAll seed := by
  intro hc
  have hq1 : ∀ d ∈ (match seed with
      | none => ([] : List (ℕ × ℕ))
      | some (sx, sy) =>
          let s := clampSeed W H sx sy
          if h s.2 s.1 ≤ level ∧ s ∉ (edgeSeeds h W H level).toFinset
          then [s] else []),
      IsSource h W H level seed d := by
    intro d hd
    match hseed : seed with
    | none => rw [hseed] at hd; exact absurd hd (List.not_mem_nil d)
    | some (sx, sy) =>
        rw [hseed] at hd
        simp only at hd
        split at hd
        · rw [List.mem_singleton] at hd
          subst hd
          exact Or.inr ⟨sx, sy, rfl, rfl, by tauto⟩
        · exact absurd hd (List.not_mem_nil d)
  have hRc : c ∈ cells W H ∧ h c.2 c.1 ≤ level := by
    refine floodBFS_sound h W H level
      (fun d => d ∈ cells W H ∧ h d.2 d.1 ≤ level)
      (fun a b _ hb hl => ⟨nbrs_subset_cells hb, hl⟩) _ _ ?_ ?_ c hc
    · intro e he
      rcases Finset.mem_union.mp he with he | he
      · rw [List.mem_toFinset] at he
        exact @isSource_spec h W H level seed e hW hH
          (Or.inl ((mem_edgeSeeds hW hH).mp he))
      · rw [List.mem_toFinset] at he
        exact @isSource_spec h W H level seed e hW hH (hq1 e he)
    · intro e he
      rcases List.mem_append.mp he with he | he
      · exact Finset.mem_union_left _ (List.mem_toFinset.mpr he)
      · exact Finset.mem_union_right _ (List.mem_toFinset.mpr he)
  exact Finset.mem_filter.mpr ⟨hRc.1, hRc.2⟩

end Geo

namespace Geo

/-- The total number of queue writes geo.c's flood performs
(geo.c, lines 199-252).  The write cursor `qt` only ever increases (queue
slots are never reused), so the run stays inside the two `qcap = W*H`-slot
buffers iff the total number of enqueues is at most `W*H`.  Enqueues
happen (a) once per border test that passes — the seeding loops
(geo.c, lines 211-218) do not consult the mask, so a corner cell at or
below the level is enqueued twice, and the list `q0 ++ q1` records each
such event — and (b) in the BFS loop exactly when a not-yet-masked cell
becomes masked, so the BFS enqueue count is the number of cells the final
mask adds over the initial one. -/
def floodEnqueues (h : ℕ → ℕ → ℚ) (W H : ℕ) (level : ℚ)
    (from_edge : Bool) (seed : Option (ℤ × ℤ)) : ℕ :=
  let q0 : List (ℕ × ℕ) := if from_edge then edgeSeeds h W H level else []
  let m0 : Finset (ℕ × ℕ) := q0.toFinset
  let q1 : List (ℕ × ℕ) :=
    match seed with
    | none => []
    | some (sx, sy) =>
        let s := clampSeed W H sx sy
        if h s.2 s.1 ≤ level ∧ s ∉ m0 then [s] else []
  (q0 ++ q1).length +
    ((floodBFS h W H level (m0 ∪ q1.toFinset) (q0 ++ q1)).card
      - (m0 ∪ q1.toFinset).card)

/-- `flood_from_edges_or_seed` with the queue capacity made explicit: the
mask when every queue write lands inside the `W*H`-slot buffers, `none`
when the run writes past them (out-of-bounds heap writes — undefined
behavior, geo.c lines 199-252). -/
def flood_from_edges_or_seed_checked (h : ℕ → ℕ → ℚ) (W H : ℕ)
    (level : ℚ) (from_edge : Bool) (seed : Option (ℤ × ℤ)) :
    Option (Finset (ℕ × ℕ)) :=
  if floodEnqueues h W H level from_edge seed ≤ W * H
  then some (flood_from_edges_or_seed h W H level from_edge seed)
  else none

/-- `classify_water` with the flood's queue capacity made explicit;
`mark_all_below` allocates no queue. -/
def classify_water_checked (h : ℕ → ℕ → ℚ) (W H : ℕ) (level : ℚ)
    (policy : Policy) (seed : Option (ℤ × ℤ)) :
    Option (Finset (ℕ × ℕ)) :=
  match policy with
  | .EdgeFlood => flood_from_edges_or_seed_checked h W H level true seed
  | .FillAll => some (mark_all_below h W H level)

end Geo

/-- CLAIM C1: counterexample.  The claim quantifies over every grid and
level, but on the flat 2x2 grid at the water level the border seeding
performs 8 queue writes (the loops at geo.c:211-218 re-enqueue the corner
cells without consulting the mask) into the two `W*H = 4`-slot queues: the
fifth write is out of bounds, so EdgeFlood's behavior on this reachable
input is undefined and the for-all-grids characterization fails. -/
theorem C1_counterexample_flood_queue_overflow :
    (Geo.edgeSeeds (fun _ _ => (0 : ℚ)) 2 2 0).length = 8 ∧
    2 * 2 < (Geo.edgeSeeds (fun _ _ => (0 : ℚ)) 2 2 0).length ∧
    Geo.classify_water_checked (fun _ _ => (0 : ℚ)) 2 2 0 .EdgeFlood none
      = none := by
  have hseeds : Geo.edgeSeeds (fun _ _ => (0 : ℚ)) 2 2 0
      = [(0, 0), (0, 1), (1, 0), (1, 1), (0, 0), (1, 0), (0, 1), (1, 1)] := by
    norm_num [Geo.edgeSeeds, List.range_succ]
  refine ⟨by rw [hseeds]; rfl, by rw [hseeds]; norm_num, ?_⟩
  unfold Geo.classify_water_checked Geo.flood_from_edges_or_seed_checked
  rw [if_neg]
  simp only [Geo.floodEnqueues, hseeds]
  norm_num
  omega

/-- CLAIM C1 (amended): on every run whose queue writes all fit in the
`W*H`-slot queues (the checked flood returns a mask), EdgeFlood marks a
cell iff its elevation is at or below the level and it is 4-connected-
reachable from a source (border cell or clamped seed at or below the
level) through cells at or below the level. -/
theorem C1_amended_edgeflood_iff_reachable_when_queue_fits
    (h : ℕ → ℕ → ℚ) (W H : ℕ) (level : ℚ) (seed : Option (ℤ × ℤ))
    (hW : 0 < W) (hH : 0 < H) (M : Finset (ℕ × ℕ))
    (hM : Geo.classify_water_checked h W H level .EdgeFlood seed = some M)
    (c : ℕ × ℕ) :
    c ∈ M ↔ h c.2 c.1 ≤ level ∧ Geo.Reach h W H level seed c := by
  have hM' : M = Geo.flood_from_edges_or_seed h W H level true seed := by
    unfold Geo.classify_water_checked
      Geo.flood_from_edges_or_seed_checked at hM
    split_ifs at hM
    exact (Option.some.inj hM).symm
  rw [hM']
  exact Geo.edgeflood_marks_iff_reachable_model h W H level seed hW hH c

/-- C1 (amended), witness: a 2x2 grid entirely above the level — no border
cell passes the test, the queues stay empty (0 enqueues), the checked
flood returns the empty mask, and the characterization applies at (0,0). -/
theorem C1_amended_edgeflood_iff_reachable_when_queue_fits_witness :
    (0 : ℕ) < 2 ∧
    Geo.classify_water_checked (fun _ _ => (9 : ℚ) / 10) 2 2 (1 / 5)
        .EdgeFlood none = some ∅ ∧
    ((0, 0) ∈ (∅ : Finset (ℕ × ℕ)) ↔
      (9 : ℚ) / 10 ≤ 1 / 5 ∧
        Geo.Reach (fun _ _ => (9 : ℚ) / 10) 2 2 (1 / 5) none (0, 0)) :=
  ⟨by norm_num,
   by norm_num [Geo.classify_water_checked,
     Geo.flood_from_edges_or_seed_checked, Geo.floodEnqueues,
     Geo.flood_from_edges_or_seed, Geo.edgeSeeds, Geo.floodBFS,
     List.range_succ],
   C1_amended_edgeflood_iff_reachable_when_queue_fits
     (fun _ _ => (9 : ℚ) / 10) 2 2 (1 / 5) none (by norm_num) (by norm_num)
     ∅
     (by norm_num [Geo.classify_water_checked,
       Geo.flood_from_edges_or_seed_checked, Geo.floodEnqueues,
       Geo.flood_from_edges_or_seed, Geo.edgeSeeds, Geo.floodBFS,
       List.range_succ])
     (0, 0)⟩

/-- CLAIM C2: counterexample.  The subset claim also quantifies over every
grid and level, but on the flat 3x3 grid at the water level the border
seeding performs 12 queue writes (corners re-enqueued, geo.c:211-218) into
the `W*H = 9`-slot queues — out-of-bounds heap writes, so EdgeFlood's mask
on this reachable input is undefined and the for-all-grids subset property
fails. -/
theorem C2_counterexample_flood_queue_overflow_3x3 :
    (Geo.edgeSeeds (fun _ _ => (0 : ℚ)) 3 3 0).length = 12 ∧
    3 * 3 < (Geo.edgeSeeds (fun _ _ => (0 : ℚ)) 3 3 0).length ∧
    Geo.classify_water_checked (fun _ _ => (0 : ℚ)) 3 3 0 .EdgeFlood none
      = none := by
  have hseeds : Geo.edgeSeeds (fun _ _ => (0 : ℚ)) 3 3 0
      = [(0, 0), (0, 2), (1, 0), (1, 2), (2, 0), (2, 2),
         (0, 0), (2, 0), (0, 1), (2, 1), (0, 2), (2, 2)] := by
    norm_num [Geo.edgeSeeds, List.range_succ]
  refine ⟨by rw [hseeds]; rfl, by rw [hseeds]; norm_num, ?_⟩
  unfold Geo.classify_water_checked Geo.flood_from_edges_or_seed_checked
  rw [if_neg]
  simp only [Geo.floodEnqueues, hseeds]
  norm_num
  omega

/-- CLAIM C2 (amended): on every run whose queue writes all fit in the
`W*H`-slot queues, the EdgeFlood mask is a cell-wise subset of the FillAll
mask at the same level. -/
theorem C2_amended_edgeflood_subset_fillall_when_queue_fits
    (h : ℕ → ℕ → ℚ) (W H : ℕ) (level : ℚ) (seed : Option (ℤ × ℤ))
    (hW : 0 < W) (hH : 0 < H) (M M' : Finset (ℕ × ℕ))
    (hM : Geo.classify_water_checked h W H level .EdgeFlood seed = some M)
    (hM' : Geo.classify_water_checked h W H level .FillAll seed = some M')
    (c : ℕ × ℕ) : c ∈ M → c ∈ M' := by
  intro hc
  have he : M = Geo.flood_from_edges_or_seed h W H level true seed := by
    unfold Geo.classify_water_checked
      Geo.flood_from_edges_or_seed_checked at hM
    split_ifs at hM
    exact (Option.some.inj hM).symm
  have hf : M' = Geo.mark_all_below h W H level := by
    unfold Geo.classify_water_checked at hM'
    exact (Option.some.inj hM').symm
  rw [hf]
  refine Geo.edgeflood_subset_fillall_model h W H level seed hW hH c ?_
  show c ∈ Geo.flood_from_edges_or_seed h W H level true seed
  rw [← he]
  exact hc

/-- C2 (amended), witness: a 2x2 grid entirely above the level — the
checked EdgeFlood returns the empty mask (0 enqueues) and the subset
property applies at (0,0). -/
theorem C2_amended_edgeflood_subset_fillall_when_queue_fits_witness :
    (0 : ℕ) < 2 ∧
    Geo.classify_water_checked (fun _ _ => (4 : ℚ) / 5) 2 2 (1 / 5)
        .EdgeFlood none = some ∅ ∧
    ((0, 0) ∈ (∅ : Finset (ℕ × ℕ)) →
      (0, 0) ∈ Geo.mark_all_below (fun _ _ => (4 : ℚ) / 5) 2 2 (1 / 5)) :=
  ⟨by norm_num,
   by norm_num [Geo.classify_water_checked,
     Geo.flood_from_edges_or_seed_checked, Geo.floodEnqueues,
     Geo.flood_from_edges_or_seed, Geo.edgeSeeds, Geo.floodBFS,
     List.range_succ],
   C2_amended_edgeflood_subset_fillall_when_queue_fits
     (fun _ _ => (4 : ℚ) / 5) 2 2 (1 / 5) none (by norm_num) (by norm_num)
     ∅ (Geo.mark_all_below (fun _ _ => (4 : ℚ) / 5) 2 2 (1 / 5))
     (by norm_num [Geo.classify_water_checked,
       Geo.flood_from_edges_or_seed_checked, Geo.floodEnqueues,
       Geo.flood_from_edges_or_seed, Geo.edgeSeeds, Geo.floodBFS,
       List.range_succ])
     rfl (0, 0)⟩

/-- Counterexample for CLAIM C7: geo.c's `resample_bilinear` (unlike
plasma.c's) has no guard on its denominators: at output width `W = 1` the
cell coordinate computation divides `x*(P-1)` by `(double)(W-1) = 0`, so
the output cell is NOT well-defined (the checked embedding yields `none`).
-/
theorem C7_counterexample_geo_resampler_unguarded :
    Geo.resampleCellChecked (fun _ => 1 / 2) 3 1 3 0 0 = none := by
  have h0 : ((1 : ℕ) : ℚ) - 1 = 0 := by norm_num
  simp [Geo.resampleCellChecked, Geo.qdiv, h0]

/-- CLAIM C7 (amended): plasma.c's resampler guards its denominators
(`denomOf W = 1` whenever `W <= 1`), so every output cell is well-defined
for every dimensions, including `W = 1` or `H = 1`; geo.c's resampler
divides by `W-1`/`H-1` unguarded, but geo.c's CLI rejects any `-x`/`-y`
value `<= 1`, so its resampler is never invoked with `W = 1` or `H = 1`. -/
theorem C7_amended_plasma_guarded_geo_dims_ge_two :
    (∀ (src : ℕ → ℚ) (n W H x y : ℕ),
        Plasma.resampleCellChecked src n W H x y
          = some (Plasma.resampleCellV src n W H x y)) ∧
    (Plasma.denomOf 1 = 1 ∧ Plasma.denomOf 0 = 1) ∧
    (∀ v : ℤ, Geo.dimAccepted v = true → 2 ≤ v) := by
  refine ⟨?_, ⟨rfl, rfl⟩, ?_⟩
  · intro src n W H x y
    unfold Plasma.resampleCellChecked Geo.qdiv
    rw [if_neg (Plasma.denomOf_ne_zero H), if_neg (Plasma.denomOf_ne_zero W)]
  · intro v hv
    simp only [Geo.dimAccepted, Bool.not_eq_true', decide_eq_false_iff_not,
      not_le] at hv
    omega

/-- Witness for the amended C7: the CLI-acceptance conjunct applied at the
concrete argument value 5. -/
theorem C7_amended_plasma_guarded_geo_dims_ge_two_witness :
    Geo.dimAccepted 5 = true ∧ (2 : ℤ) ≤ 5 :=
  ⟨by decide, C7_amended_plasma_guarded_geo_dims_ge_two.2.2 5 (by decide)⟩

namespace Geo

/-- `clamp01d` (geo.c, line 68). -/
def clamp01d (v : ℚ) : ℚ := if v < 0 then 0 else if 1 < v then 1 else v

/-- The LCG step `rng_nextu` (geo.c, line 58) on a `w`-bit unsigned long:
`rng_state = rng_state * 1664525UL + 1013904223UL`. -/
def rng_nextu (w s : ℕ) : ℕ := (s * 1664525 + 1013904223) % 2 ^ w

/-- `rng_srand` (geo.c, line 57): a zero seed is replaced by 1. -/
def rng_srand (w s : ℕ) : ℕ := (if s = 0 then 1 else s) % 2 ^ w

/-- `rng_rand01` (geo.c, lines 60-63): advance the state and return
`(u & 0xFFFFFF) / 0x1000000` together with the new state. -/
def rng_rand01 (w s : ℕ) : ℚ × ℕ :=
  ((((rng_nextu w s) % 2 ^ 24 : ℕ) : ℚ) / (2 ^ 24 : ℚ), rng_nextu w s)

/-- `rng_randm1p1` (geo.c, line 65): `rng_rand01() * 2.0 - 1.0`. -/
def rng_randm1p1 (w s : ℕ) : ℚ × ℕ :=
  ((rng_rand01 w s).1 * 2 - 1, (rng_rand01 w s).2)

/-- The index list of a C loop `for (v = start; v < stop; v += step)`. -/
def strided (start stop step : ℕ) : List ℕ :=
  List.range' start ((stop - start + step - 1) / step) step

/-- The step values of `for (step = P - 1; step > 1; step /= 2)`, with the
initial value as recursion fuel. -/
def dsStepsAux : ℕ → ℕ → List ℕ
  | 0, _ => []
  | f + 1, s => if 1 < s then s :: dsStepsAux f (s / 2) else []

def dsSteps (P : ℕ) : List ℕ := dsStepsAux (P - 1) (P - 1)

/-- The four corner writes of `ds_generate` (geo.c, lines 93-96), in order
`buf[0]`, `buf[P-1]`, `buf[(P-1)*P]`, `buf[(P-1)*P + (P-1)]`, each consuming
one `rng_rand01`.  The state is (buffer, rng state). -/
def dsCorners (w P : ℕ) (st : (ℕ → ℚ) × ℕ) : (ℕ → ℚ) × ℕ :=
  [0, P - 1, (P - 1) * P, (P - 1) * P + (P - 1)].foldl
    (fun st i =>
      (fun j => if j = i then (rng_rand01 w st.2).1 else st.1 j,
       (rng_rand01 w st.2).2))
    st

/-- One diamond write (geo.c, lines 104-113): average four reads, add
`rng_randm1p1() * scale`, clamp, store at `buf[y*P + x]`.  The code's index
expressions `x + half - step + step - half` and `y + half - step + step -
half` evaluate to plain `x` and `y` (the `/* (x + half) */` comments do not
match the code), so the four reads are `(x-half, y-half)`, `(x, y-half)`,
`(x-half, y)` and the not-yet-written target `(x, y)` itself. -/
def diamondCell (w P step : ℕ) (scale : ℚ) (y : ℕ) (st : (ℕ → ℚ) × ℕ)
    (x : ℕ) : (ℕ → ℚ) × ℕ :=
  let half := step / 2
  let a := st.1 ((y - half) * P + (x - half))
  let b := st.1 ((y - half) * P + x)
  let c := st.1 (y * P + (x - half))
  let d := st.1 (y * P + x)
  let r := rng_randm1p1 w st.2
  (fun j => if j = y * P + x
    then clamp01d ((a + b + c + d) * (1 / 4) + r.1 * scale)
    else st.1 j,
   r.2)

/-- The neighbor count of a square write (geo.c, lines 119-124): how many of
`x-half`, `x+half`, `y-half`, `y+half` are in range. -/
def squareCnt (P half x y : ℕ) : ℕ :=
  (if half ≤ x then 1 else 0) + (if x + half < P then 1 else 0) +
  (if half ≤ y then 1 else 0) + (if y + half < P then 1 else 0)

/-- The accumulated neighbor sum of a square write (geo.c, lines 119-124). -/
def squareSum (g : ℕ → ℚ) (P half x y : ℕ) : ℚ :=
  (if half ≤ x then g (y * P + (x - half)) else 0) +
  (if x + half < P then g (y * P + (x + half)) else 0) +
  (if half ≤ y then g ((y - half) * P + x) else 0) +
  (if y + half < P then g ((y + half) * P + x) else 0)

/-- One square write (geo.c, lines 118-129): average the available
axis-aligned neighbors, add scaled noise, clamp, store; no write (and no rng
consumption) when `cnt = 0`. -/
def squareCell (w P step : ℕ) (scale : ℚ) (y : ℕ) (st : (ℕ → ℚ) × ℕ)
    (x : ℕ) : (ℕ → ℚ) × ℕ :=
  let half := step / 2
  if 0 < squareCnt P half x y then
    let avg := squareSum st.1 P half x y / (squareCnt P half x y : ℚ)
    let r := rng_randm1p1 w st.2
    (fun j => if j = y * P + x then clamp01d (avg + r.1 * scale) else st.1 j,
     r.2)
  else st

/-- The diamond pass of one `ds_generate` step (geo.c, lines 103-114). -/
def dsDiamond (w P step : ℕ) (scale : ℚ) (st : (ℕ → ℚ) × ℕ) :
    (ℕ → ℚ) × ℕ :=
  (strided (step / 2) P step).foldl
    (fun st y => (strided (step / 2) P step).foldl
      (diamondCell w P step scale y) st)
    st

/-- The square pass of one `ds_generate` step (geo.c, lines 115-130); the
start of the x loop alternates with the parity of `y / half`. -/
def dsSquare (w P step : ℕ) (scale : ℚ) (st : (ℕ → ℚ) × ℕ) :
    (ℕ → ℚ) × ℕ :=
  (strided 0 P (step / 2)).foldl
    (fun st y =>
      (strided (if (y / (step / 2)) % 2 = 0 then step / 2 else 0) P step).foldl
        (squareCell w P step scale y) st)
    st

/-- `ds_generate` (geo.c, lines 90-132): corners, then for each step a
diamond pass and a square pass with
`scale = AMP0 * pow(ROUGH, log2(P-1) - log2(step))`. -/
def ds_generate (w P : ℕ) (amp rough : ℚ) (st : (ℕ → ℚ) × ℕ) :
    (ℕ → ℚ) × ℕ :=
  (dsSteps P).foldl
    (fun st step =>
      dsSquare w P step (amp * rough ^ (Nat.log 2 (P - 1) - Nat.log 2 step))
        (dsDiamond w P step
          (amp * rough ^ (Nat.log 2 (P - 1) - Nat.log 2 step)) st))
    (dsCorners w P st)

theorem clamp01d_nonneg (v : ℚ) : 0 ≤ clamp01d v := by
  unfold clamp01d
  split
  · exact le_refl 0
  · split
    · exact zero_le_one
    · linarith [not_lt.mp (by assumption : ¬ v < 0)]

theorem clamp01d_le_one (v : ℚ) : clamp01d v ≤ 1 := by
  unfold clamp01d
  split
  · exact zero_le_one
  · split
    · exact le_refl 1
    · linarith [not_lt.mp (by assumption : ¬ 1 < v)]

theorem rng_rand01_bounds (w s : ℕ) :
    0 ≤ (rng_rand01 w s).1 ∧ (rng_rand01 w s).1 ≤ 1 := by
  unfold rng_rand01
  constructor
  · positivity
  · rw [div_le_one (by positivity)]
    have h := Nat.mod_lt (rng_nextu w s) (show 0 < 2 ^ 24 by positivity)
    calc ((rng_nextu w s % 2 ^ 24 : ℕ) : ℚ) ≤ ((2 ^ 24 : ℕ) : ℚ) := by
          exact_mod_cast le_of_lt h
      _ = (2 ^ 24 : ℚ) := by norm_num

end Geo

namespace Geo

/-- A state transformer only rewrites buffer cells with values in `[0,1]`. -/
def GoodF (f : (ℕ → ℚ) × ℕ → (ℕ → ℚ) × ℕ) : Prop :=
  ∀ st i, (f st).1 i = st.1 i ∨ (0 ≤ (f st).1 i ∧ (f st).1 i ≤ 1)

theorem goodF_comp {f g : (ℕ → ℚ) × ℕ → (ℕ → ℚ) × ℕ}
    (hf : GoodF f) (hg : GoodF g) : GoodF (fun st => g (f st)) := by
  intro st i
  rcases hg (f st) i with h | h
  · rw [h]
    exact hf st i
  · exact Or.inr h

theorem goodF_id : GoodF (fun st => st) := fun _ _ => Or.inl rfl

theorem goodF_foldl {γ : Type} (op : (ℕ → ℚ) × ℕ → γ → (ℕ → ℚ) × ℕ)
    (hop : ∀ a, GoodF (fun st => op st a)) :
    ∀ l : List γ, GoodF (fun st => l.foldl op st) := by
  intro l
  induction l with
  | nil => exact goodF_id
  | cons a t ih => exact goodF_comp (hop a) ih

/-- Cell `i` in `[0,1]` is stable under any `GoodF` transformer. -/
theorem goodF_pres {f : (ℕ → ℚ) × ℕ → (ℕ → ℚ) × ℕ} (hf : GoodF f)
    (i : ℕ) (st : (ℕ → ℚ) × ℕ) (h : 0 ≤ st.1 i ∧ st.1 i ≤ 1) :
    0 ≤ (f st).1 i ∧ (f st).1 i ≤ 1 := by
  rcases hf st i with heq | hin
  · rw [heq]
    exact h
  · exact hin

theorem foldl_pres {σ γ : Type} (op : σ → γ → σ) (P : σ → Prop)
    (hpres : ∀ st a, P st → P (op st a)) :
    ∀ (l : List γ) (st : σ), P st → P (l.foldl op st) := by
  intro l
  induction l with
  | nil => exact fun st h => h
  | cons a t ih => exact fun st h => ih (op st a) (hpres st a h)

/-- If some visited element establishes `P` and every step preserves `P`,
then the fold over a list containing that element establishes `P`. -/
theorem foldl_establish {σ γ : Type} (op : σ → γ → σ) (P : σ → Prop)
    (hpres : ∀ st a, P st → P (op st a)) (a : γ)
    (hest : ∀ st, P (op st a)) :
    ∀ (l : List γ) (st : σ), a ∈ l → P (l.foldl op st) := by
  intro l
  induction l with
  | nil => intro st h; exact absurd h (List.not_mem_nil a)
  | cons b t ih =>
      intro st h
      rcases List.mem_cons.mp h with heq | hmem
      · subst heq
        exact foldl_pres op P hpres t (op st a) (hest st)
      · exact ih (op st b) hmem

theorem mem_strided {start stop step v : ℕ} (hst : 0 < step) :
    v ∈ strided start stop step ↔
      (∃ k, v = start + step * k) ∧ start ≤ v ∧ v < stop := by
  unfold strided
  rw [List.mem_range']
  constructor
  · rintro ⟨i, hi, rfl⟩
    have h2 : (i + 1) * step ≤ stop - start + step - 1 :=
      (Nat.le_div_iff_mul_le hst).mp hi
    have h3 : (i + 1) * step = step * i + step := by ring
    exact ⟨⟨i, rfl⟩, by omega, by omega⟩
  · rintro ⟨⟨k, rfl⟩, hge, hlt⟩
    refine ⟨k, (Nat.le_div_iff_mul_le hst).mpr ?_, rfl⟩
    have h3 : (k + 1) * step = step * k + step := by ring
    have h4 : k.succ * step = step * k + step := by
      rw [Nat.succ_eq_add_one]
      ring
    omega

theorem mem_dsStepsAux {j : ℕ} (hj : 1 ≤ j) :
    ∀ (m f : ℕ), j ≤ m → m ≤ f → 2 ^ j ∈ dsStepsAux f (2 ^ m) := by
  intro m
  induction m with
  | zero => intro f h1 _; exact absurd (le_trans hj h1) (by norm_num)
  | succ p ih =>
      intro f hjm hmf
      obtain ⟨f', rfl⟩ : ∃ f', f = f' + 1 := ⟨f - 1, by omega⟩
      rw [dsStepsAux, if_pos (Nat.one_lt_two_pow_iff.mpr (by omega))]
      rcases Nat.eq_or_lt_of_le hjm with heq | hlt
      · rw [heq]
        exact List.mem_cons_self _ _
      · have : (2 : ℕ) ^ (p + 1) / 2 = 2 ^ p := by
          rw [pow_succ, Nat.mul_div_cancel]
          norm_num
        rw [this]
        exact List.mem_cons_of_mem _ (ih f' (by omega) (by omega))

theorem mem_dsSteps_pow {n j : ℕ} (hj : 1 ≤ j) (hjn : j ≤ n) :
    2 ^ j ∈ dsSteps (2 ^ n + 1) := by
  unfold dsSteps
  have h : 2 ^ n + 1 - 1 = 2 ^ n := Nat.add_sub_cancel _ _
  rw [h]
  exact mem_dsStepsAux hj n (2 ^ n) hjn (le_of_lt (Nat.lt_two_pow n))

end Geo

namespace Geo

/-- Every cell of the `(2^n+1) x (2^n+1)` grid is a corner or is visited by
the diamond pass (both coordinates `≡ half (mod step)`) or the square pass
(exactly one coordinate `≡ half (mod step)`) of the step `2^j` iteration. -/
theorem ds_cover (n : ℕ) : ∀ x y : ℕ, x ≤ 2 ^ n → y ≤ 2 ^ n →
    ((x = 0 ∨ x = 2 ^ n) ∧ (y = 0 ∨ y = 2 ^ n)) ∨
    ∃ j, 1 ≤ j ∧ j ≤ n ∧
      ((x % 2 ^ j = 2 ^ (j - 1) ∧ y % 2 ^ j = 2 ^ (j - 1)) ∨
       (x % 2 ^ j = 2 ^ (j - 1) ∧ y % 2 ^ j = 0) ∨
       (x % 2 ^ j = 0 ∧ y % 2 ^ j = 2 ^ (j - 1))) := by
  induction n with
  | zero =>
      intro x y hx hy
      left
      constructor <;> omega
  | succ p ih =>
      intro x y hx hy
      have hpow : (2 : ℕ) ^ (p + 1) = 2 * 2 ^ p := by ring
      by_cases hx2 : x % 2 = 0
      · by_cases hy2 : y % 2 = 0
        · obtain ⟨x', rfl⟩ : ∃ x', x = 2 * x' := ⟨x / 2, by omega⟩
          obtain ⟨y', rfl⟩ : ∃ y', y = 2 * y' := ⟨y / 2, by omega⟩
          rcases ih x' y' (by omega) (by omega) with ⟨hcx, hcy⟩ | ⟨j, hj1, hjp, hc⟩
          · left
            constructor
            · rcases hcx with h | h <;> omega
            · rcases hcy with h | h <;> omega
          · right
            refine ⟨j + 1, by omega, by omega, ?_⟩
            have hxm : (2 * x') % 2 ^ (j + 1) = 2 * (x' % 2 ^ j) := by
              rw [pow_succ', Nat.mul_mod_mul_left]
            have hym : (2 * y') % 2 ^ (j + 1) = 2 * (y' % 2 ^ j) := by
              rw [pow_succ', Nat.mul_mod_mul_left]
            have hdd : 2 * 2 ^ (j - 1) = 2 ^ j := by
              rw [← pow_succ']
              congr 1
              omega
            have hj1' : (j + 1) - 1 = j := by omega
            rw [hxm, hym, hj1']
            rcases hc with ⟨h1, h2⟩ | ⟨h1, h2⟩ | ⟨h1, h2⟩
            · exact Or.inl ⟨by rw [h1, hdd], by rw [h2, hdd]⟩
            · exact Or.inr (Or.inl ⟨by rw [h1, hdd], by rw [h2]⟩)
            · exact Or.inr (Or.inr ⟨by rw [h1], by rw [h2, hdd]⟩)
        · right
          exact ⟨1, le_refl 1, by omega, Or.inr (Or.inr ⟨by omega, by omega⟩)⟩
      · by_cases hy2 : y % 2 = 0
        · right
          exact ⟨1, le_refl 1, by omega, Or.inr (Or.inl ⟨by omega, by omega⟩)⟩
        · right
          exact ⟨1, le_refl 1, by omega, Or.inl ⟨by omega, by omega⟩⟩

theorem goodF_dsCorners (w P : ℕ) : GoodF (dsCorners w P) := by
  unfold dsCorners
  apply goodF_foldl
  intro a st i
  simp only
  by_cases hi : i = a
  · rw [if_pos hi]
    exact Or.inr ⟨(rng_rand01_bounds w st.2).1, (rng_rand01_bounds w st.2).2⟩
  · rw [if_neg hi]
    exact Or.inl rfl

theorem goodF_diamondCell (w P step : ℕ) (scale : ℚ) (y : ℕ) :
    ∀ x, GoodF (fun st => diamondCell w P step scale y st x) := by
  intro x st i
  simp only [diamondCell]
  by_cases hi : i = y * P + x
  · rw [if_pos hi]
    exact Or.inr ⟨clamp01d_nonneg _, clamp01d_le_one _⟩
  · rw [if_neg hi]
    exact Or.inl rfl

theorem goodF_squareCell (w P step : ℕ) (scale : ℚ) (y : ℕ) :
    ∀ x, GoodF (fun st => squareCell w P step scale y st x) := by
  intro x st i
  simp only [squareCell]
  split
  · simp only
    by_cases hi : i = y * P + x
    · rw [if_pos hi]
      exact Or.inr ⟨clamp01d_nonneg _, clamp01d_le_one _⟩
    · rw [if_neg hi]
      exact Or.inl rfl
  · exact Or.inl rfl

theorem goodF_dsDiamond (w P step : ℕ) (scale : ℚ) :
    GoodF (fun st => dsDiamond w P step scale st) := by
  unfold dsDiamond
  exact goodF_foldl _ (fun y =>
    goodF_foldl _ (goodF_diamondCell w P step scale y) _) _

theorem goodF_dsSquare (w P step : ℕ) (scale : ℚ) :
    GoodF (fun st => dsSquare w P step scale st) := by
  unfold dsSquare
  exact goodF_foldl _ (fun y =>
    goodF_foldl _ (goodF_squareCell w P step scale y) _) _

theorem diamondCell_est (w P step : ℕ) (scale : ℚ) (y x : ℕ)
    (st : (ℕ → ℚ) × ℕ) :
    0 ≤ (diamondCell w P step scale y st x).1 (y * P + x) ∧
      (diamondCell w P step scale y st x).1 (y * P + x) ≤ 1 := by
  simp only [diamondCell, if_true]
  exact ⟨clamp01d_nonneg _, clamp01d_le_one _⟩

theorem squareCnt_pos {P half x y : ℕ} (h : half ≤ x ∨ x + half < P) :
    0 < squareCnt P half x y := by
  unfold squareCnt
  split_ifs <;> omega

theorem squareCell_est (w P step : ℕ) (scale : ℚ) (y x : ℕ)
    (hcnt : 0 < squareCnt P (step / 2) x y) (st : (ℕ → ℚ) × ℕ) :
    0 ≤ (squareCell w P step scale y st x).1 (y * P + x) ∧
      (squareCell w P step scale y st x).1 (y * P + x) ≤ 1 := by
  simp only [squareCell]
  rw [if_pos hcnt]
  simp only [if_true]
  exact ⟨clamp01d_nonneg _, clamp01d_le_one _⟩

theorem dsDiamond_est (w P step : ℕ) (scale : ℚ) (x y : ℕ)
    (hy : y ∈ strided (step / 2) P step) (hx : x ∈ strided (step / 2) P step)
    (st : (ℕ → ℚ) × ℕ) :
    0 ≤ (dsDiamond w P step scale st).1 (y * P + x) ∧
      (dsDiamond w P step scale st).1 (y * P + x) ≤ 1 := by
  unfold dsDiamond
  refine foldl_establish _
    (fun st => 0 ≤ st.1 (y * P + x) ∧ st.1 (y * P + x) ≤ 1)
    ?_ y ?_ _ st hy
  · intro st a h
    exact goodF_pres
      (goodF_foldl _ (goodF_diamondCell w P step scale a) _) _ _ h
  · intro st
    exact foldl_establish _
      (fun st => 0 ≤ st.1 (y * P + x) ∧ st.1 (y * P + x) ≤ 1)
      (fun st a h =>
        goodF_pres (goodF_diamondCell w P step scale y a) _ _ h)
      x (diamondCell_est w P step scale y x) _ st hx

end Geo

namespace Geo

theorem dsSquare_est (w P step : ℕ) (scale : ℚ) (x y half : ℕ)
    (hh : 0 < half) (hstep : step = 2 * half) (hhP : half < P)
    (hxP : x < P) (hyP : y < P)
    (hcase : (x % step = half ∧ y % step = 0) ∨
             (x % step = 0 ∧ y % step = half))
    (st : (ℕ → ℚ) × ℕ) :
    0 ≤ (dsSquare w P step scale st).1 (y * P + x) ∧
      (dsSquare w P step scale st).1 (y * P + x) ≤ 1 := by
  have hs2 : step / 2 = half := by omega
  have hdvd : half ∣ step := ⟨2, by omega⟩
  have hymod : y % half = 0 := by
    rcases hcase with ⟨-, h2⟩ | ⟨-, h2⟩
    · have := Nat.mod_mod_of_dvd y hdvd
      rw [h2, Nat.zero_mod] at this
      exact this.symm
    · have := Nat.mod_mod_of_dvd y hdvd
      rw [h2, Nat.mod_self] at this
      exact this.symm
  have hy_eq : y = half * (y / half) := by
    have := Nat.div_add_mod y half
    rw [hymod, add_zero] at this
    exact this.symm
  unfold dsSquare
  rw [hs2]
  have hymem : y ∈ strided 0 P half := by
    rw [mem_strided hh]
    exact ⟨⟨y / half, by rw [zero_add]; exact hy_eq⟩, Nat.zero_le y, hyP⟩
  refine foldl_establish _
    (fun st => 0 ≤ st.1 (y * P + x) ∧ st.1 (y * P + x) ≤ 1)
    ?_ y ?_ _ st hymem
  · intro st a h
    exact goodF_pres
      (goodF_foldl _ (goodF_squareCell w P step scale a) _) _ _ h
  · intro st
    have hcnt : 0 < squareCnt P (step / 2) x y := by
      rw [hs2]
      apply squareCnt_pos
      by_cases hhx : half ≤ x
      · exact Or.inl hhx
      · right
        have hx0 : x = 0 := by
          rcases hcase with ⟨h1, -⟩ | ⟨h1, -⟩
          · have := Nat.mod_le x step
            have hxlt : x < step := by omega
            rw [Nat.mod_eq_of_lt hxlt] at h1
            omega
          · have hxlt : x < step := by omega
            rw [Nat.mod_eq_of_lt hxlt] at h1
            exact h1
        omega
    rcases hcase with ⟨h1, h2⟩ | ⟨h1, h2⟩
    · -- y even multiple of step: xstart = half
      have hy_div : y / half % 2 = 0 := by
        have hy_step : y = step * (y / step) := by
          have := Nat.div_add_mod y step
          rw [h2, add_zero] at this
          exact this.symm
        have heq : step * (y / step) = half * (2 * (y / step)) := by
          rw [hstep]
          ring
        rw [hy_step, heq, Nat.mul_div_cancel_left _ hh, Nat.mul_mod_right]
      rw [if_pos hy_div]
      have hxmem : x ∈ strided half P step := by
        rw [mem_strided (by omega : 0 < step)]
        refine ⟨⟨x / step, ?_⟩, ?_, hxP⟩
        · have := Nat.div_add_mod x step
          rw [h1] at this
          omega
        · calc half = x % step := h1.symm
            _ ≤ x := Nat.mod_le x step
      exact foldl_establish _
        (fun st => 0 ≤ st.1 (y * P + x) ∧ st.1 (y * P + x) ≤ 1)
        (fun st a h => goodF_pres (goodF_squareCell w P step scale y a) _ _ h)
        x (squareCell_est w P step scale y x hcnt) _ st hxmem
    · -- y odd multiple of half: xstart = 0
      have hy_div : ¬ (y / half % 2 = 0) := by
        have hy_step : y = step * (y / step) + half := by
          have := Nat.div_add_mod y step
          rw [h2] at this
          exact this.symm
        have heq : step * (y / step) + half = half * (2 * (y / step) + 1) := by
          rw [hstep]
          ring
        rw [hy_step, heq, Nat.mul_div_cancel_left _ hh]
        omega
      rw [if_neg hy_div]
      have hxmem : x ∈ strided 0 P step := by
        rw [mem_strided (by omega : 0 < step)]
        refine ⟨⟨x / step, ?_⟩, Nat.zero_le x, hxP⟩
        have := Nat.div_add_mod x step
        rw [h1] at this
        omega
      exact foldl_establish _
        (fun st => 0 ≤ st.1 (y * P + x) ∧ st.1 (y * P + x) ≤ 1)
        (fun st a h => goodF_pres (goodF_squareCell w P step scale y a) _ _ h)
        x (squareCell_est w P step scale y x hcnt) _ st hxmem

end Geo


namespace Geo

/-- Every cell of the diamond-square buffer is in `[0,1]` after
`ds_generate`, whatever the initial buffer contents, amplitude, roughness,
word size or rng state: every corner write is a `rng_rand01` sample, every
diamond/square write is `clamp01d`-clamped, and the passes cover the whole
grid. -/
theorem ds_generate_bounds (w n : ℕ) (amp rough : ℚ) (st : (ℕ → ℚ) × ℕ)
    (x y : ℕ) (hx : x ≤ 2 ^ n) (hy : y ≤ 2 ^ n) :
    0 ≤ (ds_generate w (2 ^ n + 1) amp rough st).1 (y * (2 ^ n + 1) + x) ∧
      (ds_generate w (2 ^ n + 1) amp rough st).1 (y * (2 ^ n + 1) + x) ≤ 1 := by
  have hP1 : (2 ^ n + 1) - 1 = 2 ^ n := Nat.add_sub_cancel _ _
  unfold ds_generate
  have hstepGood : ∀ (a : ℕ), GoodF (fun st =>
      dsSquare w (2 ^ n + 1) a
        (amp * rough ^ (Nat.log 2 ((2 ^ n + 1) - 1) - Nat.log 2 a))
        (dsDiamond w (2 ^ n + 1) a
          (amp * rough ^ (Nat.log 2 ((2 ^ n + 1) - 1) - Nat.log 2 a)) st)) :=
    fun a => goodF_comp (goodF_dsDiamond w (2 ^ n + 1) a _)
      (goodF_dsSquare w (2 ^ n + 1) a _)
  rcases ds_cover n x y hx hy with ⟨hcx, hcy⟩ | ⟨j, hj1, hjn, hc⟩
  · -- corner cell: established by dsCorners, preserved by each step
    have hcorner : 0 ≤ (dsCorners w (2 ^ n + 1) st).1 (y * (2 ^ n + 1) + x) ∧
        (dsCorners w (2 ^ n + 1) st).1 (y * (2 ^ n + 1) + x) ≤ 1 := by
      unfold dsCorners
      have hmem : y * (2 ^ n + 1) + x ∈
          [0, (2 ^ n + 1) - 1, ((2 ^ n + 1) - 1) * (2 ^ n + 1),
            ((2 ^ n + 1) - 1) * (2 ^ n + 1) + ((2 ^ n + 1) - 1)] := by
        rcases hcx with rfl | rfl <;> rcases hcy with rfl | rfl <;>
          simp [hP1, List.mem_cons]
      refine foldl_establish _
        (fun st : (ℕ → ℚ) × ℕ => 0 ≤ st.1 (y * (2 ^ n + 1) + x) ∧
          st.1 (y * (2 ^ n + 1) + x) ≤ 1)
        ?_ (y * (2 ^ n + 1) + x) ?_ _ st hmem
      · intro st a h
        simp only
        by_cases hia : y * (2 ^ n + 1) + x = a
        · rw [if_pos hia]
          exact rng_rand01_bounds w st.2
        · rw [if_neg hia]
          exact h
      · intro st
        simp only [if_true]
        exact rng_rand01_bounds w st.2
    exact foldl_pres _
      (fun st : (ℕ → ℚ) × ℕ => 0 ≤ st.1 (y * (2 ^ n + 1) + x) ∧
        st.1 (y * (2 ^ n + 1) + x) ≤ 1)
      (fun st a h => goodF_pres (hstepGood a) _ _ h) _ _ hcorner
  · -- interior cell: written at the step-2^j iteration
    have hsmem : (2 : ℕ) ^ j ∈ dsSteps (2 ^ n + 1) := mem_dsSteps_pow hj1 hjn
    have hj2 : (2 : ℕ) ^ j = 2 * 2 ^ (j - 1) := by
      rw [← pow_succ']
      congr 1
      omega
    have hs2 : (2 : ℕ) ^ j / 2 = 2 ^ (j - 1) := by omega
    have hhP : 2 ^ (j - 1) < 2 ^ n + 1 := by
      have : (2 : ℕ) ^ (j - 1) ≤ 2 ^ n :=
        Nat.pow_le_pow_right (by norm_num) (by omega)
      omega
    have hest : ∀ st : (ℕ → ℚ) × ℕ,
        0 ≤ (dsSquare w (2 ^ n + 1) (2 ^ j)
            (amp * rough ^ (Nat.log 2 ((2 ^ n + 1) - 1) - Nat.log 2 (2 ^ j)))
            (dsDiamond w (2 ^ n + 1) (2 ^ j)
              (amp * rough ^ (Nat.log 2 ((2 ^ n + 1) - 1) - Nat.log 2 (2 ^ j)))
              st)).1 (y * (2 ^ n + 1) + x) ∧
          (dsSquare w (2 ^ n + 1) (2 ^ j)
            (amp * rough ^ (Nat.log 2 ((2 ^ n + 1) - 1) - Nat.log 2 (2 ^ j)))
            (dsDiamond w (2 ^ n + 1) (2 ^ j)
              (amp * rough ^ (Nat.log 2 ((2 ^ n + 1) - 1) - Nat.log 2 (2 ^ j)))
              st)).1 (y * (2 ^ n + 1) + x) ≤ 1 := by
      intro st
      rcases hc with ⟨h1, h2⟩ | ⟨h1, h2⟩ | ⟨h1, h2⟩
      · -- diamond point
        apply goodF_pres (goodF_dsSquare w (2 ^ n + 1) (2 ^ j) _)
        apply dsDiamond_est
        · rw [mem_strided (show 0 < 2 ^ j from pow_pos (by norm_num) j), hs2]
          have hdm := Nat.div_add_mod y (2 ^ j)
          rw [h2] at hdm
          refine ⟨⟨y / 2 ^ j, ?_⟩, ?_, by omega⟩
          · conv_lhs => rw [← hdm]
            ring
          · calc (2 : ℕ) ^ (j - 1) = y % 2 ^ j := h2.symm
              _ ≤ y := Nat.mod_le y (2 ^ j)
        · rw [mem_strided (show 0 < 2 ^ j from pow_pos (by norm_num) j), hs2]
          have hdm := Nat.div_add_mod x (2 ^ j)
          rw [h1] at hdm
          refine ⟨⟨x / 2 ^ j, ?_⟩, ?_, by omega⟩
          · conv_lhs => rw [← hdm]
            ring
          · calc (2 : ℕ) ^ (j - 1) = x % 2 ^ j := h1.symm
              _ ≤ x := Nat.mod_le x (2 ^ j)
      · exact dsSquare_est w (2 ^ n + 1) (2 ^ j) _ x y (2 ^ (j - 1))
          (pow_pos (by norm_num) _) hj2 hhP (by omega) (by omega)
          (Or.inl ⟨h1, h2⟩) _
      · exact dsSquare_est w (2 ^ n + 1) (2 ^ j) _ x y (2 ^ (j - 1))
          (pow_pos (by norm_num) _) hj2 hhP (by omega) (by omega)
          (Or.inr ⟨h1, h2⟩) _
    exact foldl_establish _
      (fun st : (ℕ → ℚ) × ℕ => 0 ≤ st.1 (y * (2 ^ n + 1) + x) ∧
        st.1 (y * (2 ^ n + 1) + x) ≤ 1)
      (fun st a h => goodF_pres (hstepGood a) _ _ h) (2 ^ j) hest _ _ hsmem

end Geo

/-- A convex combination of two values of `[0,1]` with weight in `[0,1]`
stays in `[0,1]`. -/
theorem convex01 {a b t : ℚ} (ha : 0 ≤ a ∧ a ≤ 1) (hb : 0 ≤ b ∧ b ≤ 1)
    (ht : 0 ≤ t ∧ t ≤ 1) : 0 ≤ a * (1 - t) + b * t ∧ a * (1 - t) + b * t ≤ 1 := by
  constructor
  · have h1 := mul_nonneg ha.1 (by linarith : (0 : ℚ) ≤ 1 - t)
    have h2 := mul_nonneg hb.1 ht.1
    linarith
  · have h1 := mul_le_mul_of_nonneg_right ha.2 (by linarith : (0 : ℚ) ≤ 1 - t)
    have h2 := mul_le_mul_of_nonneg_right hb.2 ht.1
    linarith

/-- Bilinear blend of four `[0,1]` values with weights in `[0,1]` stays in
`[0,1]`. -/
theorem bilerp_bounds {a b c d fx fy : ℚ}
    (ha : 0 ≤ a ∧ a ≤ 1) (hb : 0 ≤ b ∧ b ≤ 1)
    (hc : 0 ≤ c ∧ c ≤ 1) (hd : 0 ≤ d ∧ d ≤ 1)
    (hfx : 0 ≤ fx ∧ fx ≤ 1) (hfy : 0 ≤ fy ∧ fy ≤ 1) :
    0 ≤ (a * (1 - fx) + b * fx) * (1 - fy) + (c * (1 - fx) + d * fx) * fy ∧
      (a * (1 - fx) + b * fx) * (1 - fy) + (c * (1 - fx) + d * fx) * fy ≤ 1 :=
  convex01 (convex01 ha hb hfx) (convex01 hc hd hfx) hfy

namespace Geo

theorem resampleCellV_bounds (src : ℕ → ℚ) (P W H x y : ℕ)
    (hP : 1 ≤ P) (hW : 2 ≤ W) (hH : 2 ≤ H) (hx : x < W) (hy : y < H)
    (hsrc : ∀ i j, i < P → j < P → 0 ≤ src (j * P + i) ∧ src (j * P + i) ≤ 1) :
    0 ≤ resampleCellV src P W H x y ∧ resampleCellV src P W H x y ≤ 1 := by
  have hWq : (2 : ℚ) ≤ (W : ℚ) := by exact_mod_cast hW
  have hHq : (2 : ℚ) ≤ (H : ℚ) := by exact_mod_cast hH
  have hPq : (1 : ℚ) ≤ (P : ℚ) := by exact_mod_cast hP
  have hxq : (x : ℚ) ≤ (W : ℚ) - 1 := by
    have : (x : ℚ) + 1 ≤ (W : ℚ) := by exact_mod_cast hx
    linarith
  have hyq : (y : ℚ) ≤ (H : ℚ) - 1 := by
    have : (y : ℚ) + 1 ≤ (H : ℚ) := by exact_mod_cast hy
    linarith
  simp only [resampleCellV]
  set u : ℚ := (x : ℚ) * ((P : ℚ) - 1) / ((W : ℚ) - 1) with hu
  set v : ℚ := (y : ℚ) * ((P : ℚ) - 1) / ((H : ℚ) - 1) with hv
  have hu0 : 0 ≤ u := by
    rw [hu]
    apply div_nonneg
    · apply mul_nonneg (Nat.cast_nonneg x)
      linarith
    · linarith
  have hv0 : 0 ≤ v := by
    rw [hv]
    apply div_nonneg
    · apply mul_nonneg (Nat.cast_nonneg y)
      linarith
    · linarith
  have hu1 : u ≤ (P : ℚ) - 1 := by
    rw [hu, div_le_iff₀ (by linarith : (0 : ℚ) < (W : ℚ) - 1)]
    calc (x : ℚ) * ((P : ℚ) - 1) ≤ ((W : ℚ) - 1) * ((P : ℚ) - 1) :=
          mul_le_mul_of_nonneg_right hxq (by linarith)
      _ = ((P : ℚ) - 1) * ((W : ℚ) - 1) := by ring
  have hv1 : v ≤ (P : ℚ) - 1 := by
    rw [hv, div_le_iff₀ (by linarith : (0 : ℚ) < (H : ℚ) - 1)]
    calc (y : ℚ) * ((P : ℚ) - 1) ≤ ((H : ℚ) - 1) * ((P : ℚ) - 1) :=
          mul_le_mul_of_nonneg_right hyq (by linarith)
      _ = ((P : ℚ) - 1) * ((H : ℚ) - 1) := by ring
  have hfloorP : (((P : ℤ) - 1 : ℤ) : ℚ) = (P : ℚ) - 1 := by push_cast; ring
  have hx0l : (0 : ℤ) ≤ ⌊u⌋ := Int.floor_nonneg.mpr hu0
  have hy0l : (0 : ℤ) ≤ ⌊v⌋ := Int.floor_nonneg.mpr hv0
  have hx0u : ⌊u⌋ ≤ (P : ℤ) - 1 := by
    have h1 : ⌊u⌋ ≤ ⌊(((P : ℤ) - 1 : ℤ) : ℚ)⌋ := Int.floor_le_floor (by rw [hfloorP]; exact hu1)
    rwa [Int.floor_intCast] at h1
  have hy0u : ⌊v⌋ ≤ (P : ℤ) - 1 := by
    have h1 : ⌊v⌋ ≤ ⌊(((P : ℤ) - 1 : ℤ) : ℚ)⌋ := Int.floor_le_floor (by rw [hfloorP]; exact hv1)
    rwa [Int.floor_intCast] at h1
  have hfx : 0 ≤ u - (⌊u⌋ : ℚ) ∧ u - (⌊u⌋ : ℚ) ≤ 1 :=
    ⟨by linarith [Int.floor_le u], by linarith [Int.lt_floor_add_one u]⟩
  have hfy : 0 ≤ v - (⌊v⌋ : ℚ) ∧ v - (⌊v⌋ : ℚ) ≤ 1 :=
    ⟨by linarith [Int.floor_le v], by linarith [Int.lt_floor_add_one v]⟩
  have hx0P : (⌊u⌋).toNat < P := by omega
  have hy0P : (⌊v⌋).toNat < P := by omega
  have hx1P : ((if (P : ℤ) ≤ ⌊u⌋ + 1 then (P : ℤ) - 1 else ⌊u⌋ + 1)).toNat < P := by
    split <;> omega
  have hy1P : ((if (P : ℤ) ≤ ⌊v⌋ + 1 then (P : ℤ) - 1 else ⌊v⌋ + 1)).toNat < P := by
    split <;> omega
  exact bilerp_bounds (hsrc _ _ hx0P hy0P) (hsrc _ _ hx1P hy0P)
    (hsrc _ _ hx0P hy1P) (hsrc _ _ hx1P hy1P) hfx hfy

end Geo

namespace Geo

/-- Index clamping of `smooth_box` (geo.c, lines 174-176):
`if (c < 0) c = 0; if (c >= n) c = n - 1;`. -/
def clampIdx (n : ℕ) (v : ℤ) : ℕ :=
  (if v < 0 then 0 else if (n : ℤ) ≤ v then (n : ℤ) - 1 else v).toNat

/-- One cell of a 3x3 box-blur pass (geo.c, lines 168-182): the mean of the
nine border-clamped neighbors; `cnt` is always 9. -/
def smoothCell (g : ℕ → ℕ → ℚ) (W H x y : ℕ) : ℚ :=
  (([(y : ℤ) - 1, (y : ℤ), (y : ℤ) + 1].map (fun yy =>
      ([(x : ℤ) - 1, (x : ℤ), (x : ℤ) + 1].map (fun xx =>
        g (clampIdx W xx) (clampIdx H yy))).sum)).sum) / 9

/-- `smooth_box` (geo.c, lines 161-189): `passes` sequential 3x3 box-blur
passes, each computed into a fresh buffer from the previous one. -/
def smooth_box (W H : ℕ) : ℕ → (ℕ → ℕ → ℚ) → (ℕ → ℕ → ℚ)
  | 0, g => g
  | p + 1, g => smooth_box W H p (fun x y => smoothCell g W H x y)

theorem clampIdx_lt {n : ℕ} (hn : 0 < n) (v : ℤ) : clampIdx n v < n := by
  unfold clampIdx
  split
  · omega
  · split <;> omega

theorem smoothCell_bounds (g : ℕ → ℕ → ℚ) (W H x y : ℕ)
    (hW : 0 < W) (hH : 0 < H)
    (hg : ∀ a b, a < W → b < H → 0 ≤ g a b ∧ g a b ≤ 1) :
    0 ≤ smoothCell g W H x y ∧ smoothCell g W H x y ≤ 1 := by
  have ht : ∀ xx yy : ℤ,
      0 ≤ g (clampIdx W xx) (clampIdx H yy) ∧
        g (clampIdx W xx) (clampIdx H yy) ≤ 1 :=
    fun xx yy => hg _ _ (clampIdx_lt hW xx) (clampIdx_lt hH yy)
  unfold smoothCell
  simp only [List.map_cons, List.map_nil, List.sum_cons, List.sum_nil]
  obtain ⟨a1, b1⟩ := ht ((x : ℤ) - 1) ((y : ℤ) - 1)
  obtain ⟨a2, b2⟩ := ht (x : ℤ) ((y : ℤ) - 1)
  obtain ⟨a3, b3⟩ := ht ((x : ℤ) + 1) ((y : ℤ) - 1)
  obtain ⟨a4, b4⟩ := ht ((x : ℤ) - 1) (y : ℤ)
  obtain ⟨a5, b5⟩ := ht (x : ℤ) (y : ℤ)
  obtain ⟨a6, b6⟩ := ht ((x : ℤ) + 1) (y : ℤ)
  obtain ⟨a7, b7⟩ := ht ((x : ℤ) - 1) ((y : ℤ) + 1)
  obtain ⟨a8, b8⟩ := ht (x : ℤ) ((y : ℤ) + 1)
  obtain ⟨a9, b9⟩ := ht ((x : ℤ) + 1) ((y : ℤ) + 1)
  constructor <;> [linarith; linarith]

theorem smooth_box_bounds (W H : ℕ) (hW : 0 < W) (hH : 0 < H) :
    ∀ (passes : ℕ) (g : ℕ → ℕ → ℚ),
      (∀ a b, a < W → b < H → 0 ≤ g a b ∧ g a b ≤ 1) →
      ∀ x y, x < W → y < H →
        0 ≤ smooth_box W H passes g x y ∧ smooth_box W H passes g x y ≤ 1 := by
  intro passes
  induction passes with
  | zero => intro g hg x y hx hy; exact hg x y hx hy
  | succ p ih =>
      intro g hg x y hx hy
      exact ih (fun x y => smoothCell g W H x y)
        (fun a b _ _ => smoothCell_bounds g W H a b hW hH hg) x y hx hy

end Geo

namespace Plasma

theorem normalize01_bounds (g : ℕ → ℚ) (N i : ℕ) (hN : 0 < N) (hi : i < N) :
    0 ≤ normalize01 g N i ∧ normalize01 g N i ≤ 1 := by
  unfold normalize01
  split
  · norm_num
  · rename_i hflat
    obtain ⟨hmn, hmx⟩ := minmax_le_of_mem g N hi
    have hpos : 0 < (minmax g N).2 - (minmax g N).1 := by
      by_contra hle
      exact hflat (by push_neg at hle; linarith [pow_pos (show (0:ℚ) < 10 by norm_num) 12])
    constructor
    · apply div_nonneg _ (le_of_lt hpos)
      linarith
    · rw [div_le_one hpos]
      linarith

end Plasma

/-- CLAIM C3: every cell of every produced elevation grid lies in `[0,1]`.
Geo pipeline: whatever the initial (uninitialized) buffer, `ds_generate`
leaves every cell of the `(2^n+1)^2` grid in `[0,1]` (clamping at write
time plus full coverage), bilinear resampling to any accepted `W x H`
stays in `[0,1]`, and any number of 3x3 smoothing passes stays in `[0,1]`.
Plasma variant: `normalize01` maps every cell of a nonempty grid into
`[0,1]`. -/
theorem C3_elevation_grids_lie_in_unit_interval :
    (∀ (w n : ℕ) (amp rough : ℚ) (st : (ℕ → ℚ) × ℕ) (W H passes x y : ℕ),
      2 ≤ W → 2 ≤ H → x < W → y < H →
      0 ≤ Geo.smooth_box W H passes
            (fun x y => Geo.resampleCellV
              (Geo.ds_generate w (2 ^ n + 1) amp rough st).1
              (2 ^ n + 1) W H x y) x y ∧
        Geo.smooth_box W H passes
            (fun x y => Geo.resampleCellV
              (Geo.ds_generate w (2 ^ n + 1) amp rough st).1
              (2 ^ n + 1) W H x y) x y ≤ 1) ∧
    (∀ (g : ℕ → ℚ) (N i : ℕ), 0 < N → i < N →
      0 ≤ Plasma.normalize01 g N i ∧ Plasma.normalize01 g N i ≤ 1) := by
  constructor
  · intro w n amp rough st W H passes x y hW hH hx hy
    have hsrc : ∀ i j, i < 2 ^ n + 1 → j < 2 ^ n + 1 →
        0 ≤ (Geo.ds_generate w (2 ^ n + 1) amp rough st).1 (j * (2 ^ n + 1) + i) ∧
          (Geo.ds_generate w (2 ^ n + 1) amp rough st).1 (j * (2 ^ n + 1) + i) ≤ 1 :=
      fun i j hiP hjP =>
        Geo.ds_generate_bounds w n amp rough st i j
          (Nat.lt_succ_iff.mp hiP) (Nat.lt_succ_iff.mp hjP)
    have hmap : ∀ a b, a < W → b < H →
        0 ≤ Geo.resampleCellV (Geo.ds_generate w (2 ^ n + 1) amp rough st).1
              (2 ^ n + 1) W H a b ∧
          Geo.resampleCellV (Geo.ds_generate w (2 ^ n + 1) amp rough st).1
              (2 ^ n + 1) W H a b ≤ 1 :=
      fun a b ha hb =>
        Geo.resampleCellV_bounds _ (2 ^ n + 1) W H a b
          (Nat.succ_le_succ (Nat.zero_le _)) hW hH ha hb hsrc
    exact Geo.smooth_box_bounds W H (by omega) (by omega) passes _ hmap x y hx hy
  · exact fun g N i hN hi => Plasma.normalize01_bounds g N i hN hi

/-- Witness for C3: concrete applications — the geo pipeline at
`w = 64, n = 1, amp = 1, rough = 13/20`, garbage initial buffer `fun _ => 7`,
output 2x2, one smoothing pass, cell (1,1); and plasma normalization of a
4-cell grid at cell 3. -/
theorem C3_elevation_grids_lie_in_unit_interval_witness :
    (0 ≤ Geo.smooth_box 2 2 1
          (fun x y => Geo.resampleCellV
            (Geo.ds_generate 64 (2 ^ 1 + 1) 1 (13 / 20) (fun _ => 7, 5)).1
            (2 ^ 1 + 1) 2 2 x y) 1 1 ∧
      Geo.smooth_box 2 2 1
          (fun x y => Geo.resampleCellV
            (Geo.ds_generate 64 (2 ^ 1 + 1) 1 (13 / 20) (fun _ => 7, 5)).1
            (2 ^ 1 + 1) 2 2 x y) 1 1 ≤ 1) ∧
    (0 ≤ Plasma.normalize01 (fun i => (i : ℚ)) 4 3 ∧
      Plasma.normalize01 (fun i => (i : ℚ)) 4 3 ≤ 1) :=
  ⟨C3_elevation_grids_lie_in_unit_interval.1 64 1 1 (13 / 20) (fun _ => 7, 5)
      2 2 1 1 1 (by norm_num) (by norm_num) (by norm_num) (by norm_num),
   C3_elevation_grids_lie_in_unit_interval.2 (fun i => (i : ℚ)) 4 3
      (by norm_num) (by norm_num)⟩

namespace Geo

/-- Two rng states that agree on the low 24 bits — the only bits
`rng_rand01` extracts. -/
def rngRel (s1 s2 : ℕ) : Prop := s1 % 2 ^ 24 = s2 % 2 ^ 24

theorem rng_nextu_mod24 {w : ℕ} (hw : 24 ≤ w) (s : ℕ) :
    rng_nextu w s % 2 ^ 24 = (s * 1664525 + 1013904223) % 2 ^ 24 := by
  unfold rng_nextu
  exact Nat.mod_mod_of_dvd _ (pow_dvd_pow 2 hw)

theorem rngRel_next {w1 w2 s1 s2 : ℕ} (h1 : 24 ≤ w1) (h2 : 24 ≤ w2)
    (h : rngRel s1 s2) : rngRel (rng_nextu w1 s1) (rng_nextu w2 s2) := by
  unfold rngRel
  rw [rng_nextu_mod24 h1, rng_nextu_mod24 h2]
  exact Nat.ModEq.add_right _ (Nat.ModEq.mul_right _ h)

theorem rng_rand01_rel {w1 w2 s1 s2 : ℕ} (h1 : 24 ≤ w1) (h2 : 24 ≤ w2)
    (h : rngRel s1 s2) :
    (rng_rand01 w1 s1).1 = (rng_rand01 w2 s2).1 ∧
      rngRel (rng_rand01 w1 s1).2 (rng_rand01 w2 s2).2 := by
  have hn := rngRel_next h1 h2 h
  unfold rng_rand01
  exact ⟨by rw [hn], hn⟩

theorem rng_randm1p1_rel {w1 w2 s1 s2 : ℕ} (h1 : 24 ≤ w1) (h2 : 24 ≤ w2)
    (h : rngRel s1 s2) :
    (rng_randm1p1 w1 s1).1 = (rng_randm1p1 w2 s2).1 ∧
      rngRel (rng_randm1p1 w1 s1).2 (rng_randm1p1 w2 s2).2 := by
  obtain ⟨hv, hs⟩ := rng_rand01_rel h1 h2 h
  unfold rng_randm1p1
  exact ⟨by rw [hv], hs⟩

/-- The coupling for geo.c's determinism: identical buffer contents and
rng states that agree on their low 24 bits (the only bits `rng_rand01`
extracts). -/
def StRel (st1 st2 : (ℕ → ℚ) × ℕ) : Prop :=
  st1.1 = st2.1 ∧ rngRel st1.2 st2.2

/-- Seeding with the same value gives related rng states for any word sizes
of at least 24 bits. -/
theorem rng_srand_rel {w1 w2 : ℕ} (h1 : 24 ≤ w1) (h2 : 24 ≤ w2) (seed : ℕ) :
    rngRel (rng_srand w1 seed) (rng_srand w2 seed) := by
  unfold rngRel rng_srand
  rw [Nat.mod_mod_of_dvd _ (pow_dvd_pow 2 h1),
    Nat.mod_mod_of_dvd _ (pow_dvd_pow 2 h2)]

theorem foldl_strel {γ : Type}
    (op1 op2 : ((ℕ → ℚ) × ℕ) → γ → ((ℕ → ℚ) × ℕ)) :
    ∀ l : List γ,
    (∀ a ∈ l, ∀ st1 st2, StRel st1 st2 → StRel (op1 st1 a) (op2 st2 a)) →
    ∀ st1 st2, StRel st1 st2 →
      StRel (l.foldl op1 st1) (l.foldl op2 st2) := by
  intro l
  induction l with
  | nil => intro _ st1 st2 h; exact h
  | cons b t ih =>
      intro hop st1 st2 h
      rw [List.foldl_cons, List.foldl_cons]
      exact ih (fun a ha => hop a (List.mem_cons_of_mem b ha)) _ _
        (hop b (List.mem_cons_self b t) st1 st2 h)

theorem dsCorners_srel {w1 w2 : ℕ} (h1 : 24 ≤ w1) (h2 : 24 ≤ w2) (P : ℕ)
    {st1 st2 : (ℕ → ℚ) × ℕ} (h : StRel st1 st2) :
    StRel (dsCorners w1 P st1) (dsCorners w2 P st2) := by
  unfold dsCorners
  refine foldl_strel _ _ _ ?_ st1 st2 h
  intro i _ t1 t2 ⟨hb, hr⟩
  obtain ⟨hv, hs⟩ := rng_rand01_rel h1 h2 hr
  exact ⟨by rw [hb, hv], hs⟩

theorem diamondCell_srel {w1 w2 : ℕ} (h1 : 24 ≤ w1) (h2 : 24 ≤ w2)
    (P step : ℕ) (scale : ℚ) (y x : ℕ) {st1 st2 : (ℕ → ℚ) × ℕ}
    (h : StRel st1 st2) :
    StRel (diamondCell w1 P step scale y st1 x)
      (diamondCell w2 P step scale y st2 x) := by
  obtain ⟨hb, hr⟩ := h
  obtain ⟨hv, hs⟩ := rng_randm1p1_rel h1 h2 hr
  simp only [diamondCell]
  exact ⟨by rw [hb, hv], hs⟩

theorem squareCell_srel {w1 w2 : ℕ} (h1 : 24 ≤ w1) (h2 : 24 ≤ w2)
    (P step : ℕ) (scale : ℚ) (y x : ℕ) {st1 st2 : (ℕ → ℚ) × ℕ}
    (h : StRel st1 st2) :
    StRel (squareCell w1 P step scale y st1 x)
      (squareCell w2 P step scale y st2 x) := by
  obtain ⟨hb, hr⟩ := h
  obtain ⟨hv, hs⟩ := rng_randm1p1_rel h1 h2 hr
  simp only [squareCell]
  by_cases hc : 0 < squareCnt P (step / 2) x y
  · rw [if_pos hc, if_pos hc]
    exact ⟨by rw [hb, hv], hs⟩
  · rw [if_neg hc, if_neg hc]
    exact ⟨hb, hr⟩

theorem dsDiamond_srel {w1 w2 : ℕ} (h1 : 24 ≤ w1) (h2 : 24 ≤ w2)
    (P step : ℕ) (scale : ℚ) {st1 st2 : (ℕ → ℚ) × ℕ} (h : StRel st1 st2) :
    StRel (dsDiamond w1 P step scale st1) (dsDiamond w2 P step scale st2) := by
  unfold dsDiamond
  refine foldl_strel _ _ _ ?_ st1 st2 h
  intro y _ t1 t2 ht
  refine foldl_strel _ _ _ ?_ t1 t2 ht
  intro x _ u1 u2 hu
  exact diamondCell_srel h1 h2 P step scale y x hu

theorem dsSquare_srel {w1 w2 : ℕ} (h1 : 24 ≤ w1) (h2 : 24 ≤ w2)
    (P step : ℕ) (scale : ℚ) {st1 st2 : (ℕ → ℚ) × ℕ} (h : StRel st1 st2) :
    StRel (dsSquare w1 P step scale st1) (dsSquare w2 P step scale st2) := by
  unfold dsSquare
  refine foldl_strel _ _ _ ?_ st1 st2 h
  intro y _ t1 t2 ht
  refine foldl_strel _ _ _ ?_ t1 t2 ht
  intro x _ u1 u2 hu
  exact squareCell_srel h1 h2 P step scale y x hu

/-- geo.c's generator is deterministic in the seed, the parameters, and the
initial buffer contents: for any grid side `P`, two runs on word sizes of
at least 24 bits with identical initial buffers and low-24-bit-equal rng
states produce identical buffers and low-24-bit-equal final states. -/
theorem ds_generate_srel {w1 w2 : ℕ} (h1 : 24 ≤ w1) (h2 : 24 ≤ w2)
    (P : ℕ) (amp rough : ℚ) {st1 st2 : (ℕ → ℚ) × ℕ} (h : StRel st1 st2) :
    StRel (ds_generate w1 P amp rough st1) (ds_generate w2 P amp rough st2) := by
  unfold ds_generate
  refine foldl_strel _ _ _ ?_ _ _ (dsCorners_srel h1 h2 P h)
  intro step _ t1 t2 ht
  exact dsSquare_srel h1 h2 P step _ (dsDiamond_srel h1 h2 P step _ ht)

end Geo

namespace Plasma

/-- `frand01` (plasma.c, lines 81-83): the next value of the C library's
`rand()` stream, divided by `RAND_MAX`; the stream is abstracted as a
function `r` from call counter to the quotient `rand()/RAND_MAX`. -/
def frand01 (r : ℕ → ℚ) (k : ℕ) : ℚ × ℕ := (r k, k + 1)

/-- `frand_symmetric` (plasma.c, lines 86-88). -/
def frand_symmetric (r : ℕ → ℚ) (amp : ℚ) (k : ℕ) : ℚ × ℕ :=
  (((frand01 r k).1 * 2 - 1) * amp, (frand01 r k).2)

/-- The four corner writes of `diamond_square` (plasma.c, lines 118-122). -/
def pCorners (r : ℕ → ℚ) (n : ℕ) (scale : ℚ) (st : (ℕ → ℚ) × ℕ) :
    (ℕ → ℚ) × ℕ :=
  [(0, 0), (n - 1, 0), (0, n - 1), (n - 1, n - 1)].foldl
    (fun st c =>
      (fun j => if j = c.2 * n + c.1
        then (frand_symmetric r scale st.2).1 else st.1 j,
       (frand_symmetric r scale st.2).2))
    st

/-- One diamond write of plasma.c's `diamond_square` (lines 128-137). -/
def pDiamondCell (r : ℕ → ℚ) (n step : ℕ) (scale : ℚ) (y : ℕ)
    (st : (ℕ → ℚ) × ℕ) (x : ℕ) : (ℕ → ℚ) × ℕ :=
  let half := step / 2
  let a := get_src st.1 n ((x : ℤ) - half) ((y : ℤ) - half)
  let b := get_src st.1 n ((x : ℤ) + half) ((y : ℤ) - half)
  let c := get_src st.1 n ((x : ℤ) - half) ((y : ℤ) + half)
  let d := get_src st.1 n ((x : ℤ) + half) ((y : ℤ) + half)
  let off := frand_symmetric r scale st.2
  (fun j => if j = y * n + x then (a + b + c + d) * (1 / 4) + off.1
    else st.1 j,
   off.2)

/-- One square write of plasma.c's `diamond_square` (lines 143-157): the
guards accumulate in the order `y-half`, `y+half`, `x-half`, `x+half`, and
the `cnt = 0` branch still consumes one random value. -/
def pSquareCell (r : ℕ → ℚ) (n step : ℕ) (scale : ℚ) (y : ℕ)
    (st : (ℕ → ℚ) × ℕ) (x : ℕ) : (ℕ → ℚ) × ℕ :=
  let half := step / 2
  let sum :=
    (if half ≤ y then get_src st.1 n (x : ℤ) ((y : ℤ) - half) else 0) +
    (if y + half < n then get_src st.1 n (x : ℤ) ((y : ℤ) + half) else 0) +
    (if half ≤ x then get_src st.1 n ((x : ℤ) - half) (y : ℤ) else 0) +
    (if x + half < n then get_src st.1 n ((x : ℤ) + half) (y : ℤ) else 0)
  let cnt :=
    (if half ≤ y then 1 else 0) + (if y + half < n then 1 else 0) +
    (if half ≤ x then 1 else 0) + (if x + half < n then (1 : ℕ) else 0)
  let off := frand_symmetric r scale st.2
  (fun j => if j = y * n + x
    then (if 0 < cnt then sum / (cnt : ℚ) + off.1 else off.1) else st.1 j,
   off.2)

/-- The diamond pass of plasma.c's `diamond_square` (lines 127-139). -/
def pDiamond (r : ℕ → ℚ) (n step : ℕ) (scale : ℚ) (st : (ℕ → ℚ) × ℕ) :
    (ℕ → ℚ) × ℕ :=
  (Geo.strided (step / 2) n step).foldl
    (fun st y => (Geo.strided (step / 2) n step).foldl
      (pDiamondCell r n step scale y) st)
    st

/-- The square pass of plasma.c's `diamond_square` (lines 141-158);
`xstart = ((y / half) % 2) ? 0 : half`. -/
def pSquare (r : ℕ → ℚ) (n step : ℕ) (scale : ℚ) (st : (ℕ → ℚ) × ℕ) :
    (ℕ → ℚ) × ℕ :=
  (Geo.strided 0 n (step / 2)).foldl
    (fun st y =>
      (Geo.strided (if (y / (step / 2)) % 2 = 0 then step / 2 else 0) n
        step).foldl (pSquareCell r n step scale y) st)
    st

/-- `diamond_square` (plasma.c, lines 113-163): corners at scale `amp`,
then per step a diamond and a square pass, with `scale *= decay` after
each step.  The state is (buffer, `rand()` call counter). -/
def diamond_square (r : ℕ → ℚ) (n : ℕ) (amp decay : ℚ)
    (st : (ℕ → ℚ) × ℕ) : (ℕ → ℚ) × ℕ :=
  ((Geo.dsSteps n).foldl
    (fun acc step =>
      (pSquare r n step acc.2 (pDiamond r n step acc.2 acc.1), acc.2 * decay))
    (pCorners r n amp st, amp)).1

end Plasma

/-- C4: counterexample.  Neither synthesis is a pure function of the seed
and parameters.  plasma.c: `frand01` reads the C library's `rand()`
stream, and two conforming `rand` implementations (streams of values in
`[0,1)` after division by `RAND_MAX`) seeded identically may produce
different streams, giving different grids — here the centre cell of a 3x3
synthesis differs.  geo.c: the diamond reads of geo.c:107-109 include
cells never written before (among them the write target itself), so the
output depends on the malloc'd buffer's initial garbage — here the centre
cell of a 3x3 run differs between garbage 0 and garbage 1/2 with the same
word size and seed. -/
theorem C4_counterexample_synthesis_not_pure_in_seed :
    ((∀ k : ℕ, 0 ≤ (fun _ : ℕ => (0 : ℚ)) k ∧ (fun _ : ℕ => (0 : ℚ)) k < 1) ∧
     (∀ k : ℕ, 0 ≤ (fun _ : ℕ => (1 / 2 : ℚ)) k ∧
       (fun _ : ℕ => (1 / 2 : ℚ)) k < 1) ∧
     (Plasma.diamond_square (fun _ => 0) 3 1 (3 / 5) (fun _ => 0, 0)).1 4
       ≠ (Plasma.diamond_square (fun _ => 1 / 2) 3 1 (3 / 5)
           (fun _ => 0, 0)).1 4) ∧
    (Geo.ds_generate 32 3 1 (1 / 2) ((fun _ => 0), Geo.rng_srand 32 2)).1 4
      ≠ (Geo.ds_generate 32 3 1 (1 / 2)
          ((fun _ => 1 / 2), Geo.rng_srand 32 2)).1 4 := by
  constructor
  · refine ⟨fun k => by norm_num, fun k => by norm_num, ?_⟩
    norm_num [Plasma.diamond_square, Geo.dsSteps, Geo.dsStepsAux,
      Plasma.pCorners, Plasma.pDiamond, Plasma.pSquare, Plasma.pDiamondCell,
      Plasma.pSquareCell, Plasma.frand_symmetric, Plasma.frand01,
      Plasma.get_src, Geo.strided, List.range', List.foldl_cons,
      List.foldl_nil]
    simp only [Int.toNat]
    norm_num
  · norm_num [Geo.ds_generate, Geo.dsSteps, Geo.dsStepsAux, Geo.dsCorners,
      Geo.dsDiamond, Geo.dsSquare, Geo.diamondCell, Geo.squareCell,
      Geo.squareSum, Geo.squareCnt, Geo.clamp01d, Geo.rng_randm1p1,
      Geo.rng_rand01, Geo.rng_nextu, Geo.rng_srand, Geo.strided,
      List.range', List.foldl_cons, List.foldl_nil, Nat.sub_self]

/-- CLAIM C4 (amended): geo.c's synthesis is a deterministic function of
the seed, the parameters, and the initial contents of its malloc'd buffer:
its own LCG (`rng_srand`/`rng_nextu`) replaces `rand()`, and `rng_rand01`
consumes only the low 24 bits of the state, so two runs on machines whose
`unsigned long` has at least 24 bits, with the same seed, parameters and
initial buffer contents, produce identical elevation values at every cell.
(Purity in the seed and parameters alone fails for both programs — see the
counterexample: plasma.c reads the platform's `rand()` stream, geo.c reads
its buffer's initial garbage through the diamond pass.) -/
theorem C4_amended_geo_deterministic_given_initial_buffer
    (w1 w2 : ℕ) (h1 : 24 ≤ w1) (h2 : 24 ≤ w2) (P seed : ℕ)
    (amp rough : ℚ) (b : ℕ → ℚ) (i : ℕ) :
    (Geo.ds_generate w1 P amp rough (b, Geo.rng_srand w1 seed)).1 i
      = (Geo.ds_generate w2 P amp rough (b, Geo.rng_srand w2 seed)).1 i :=
  congrFun
    (Geo.ds_generate_srel h1 h2 P amp rough
      (⟨rfl, Geo.rng_srand_rel h1 h2 seed⟩ :
        Geo.StRel (b, Geo.rng_srand w1 seed) (b, Geo.rng_srand w2 seed))).1
    i

/-- C4 (amended), witness: word sizes 32 and 64, seed 42, a 3x3 grid, the
same initial buffer contents on both machines. -/
theorem C4_amended_geo_deterministic_given_initial_buffer_witness :
    24 ≤ 32 ∧ 24 ≤ 64 ∧
      (Geo.ds_generate 32 3 1 (13 / 20)
          ((fun _ => 7), Geo.rng_srand 32 42)).1 4
        = (Geo.ds_generate 64 3 1 (13 / 20)
            ((fun _ => 7), Geo.rng_srand 64 42)).1 4 :=
  ⟨by norm_num, by norm_num,
    C4_amended_geo_deterministic_given_initial_buffer 32 64 (by norm_num)
      (by norm_num) 3 42 1 (13 / 20) (fun _ => 7) 4⟩

namespace Geo

/-- `smooth_box` with its per-pass temporary-buffer allocation made
explicit (geo.c, lines 161-189): the state is (grid, allocation counter);
each pass requests one allocation, and on failure the function returns at
once — the remaining passes are silently skipped and the caller is not
told (`if (!tmp) return;`). -/
def smooth_box_alloc (alloc : ℕ → Bool) (W H : ℕ) :
    ℕ → (ℕ → ℕ → ℚ) × ℕ → (ℕ → ℕ → ℚ) × ℕ
  | 0, st => st
  | p + 1, (g, k) =>
      if alloc k then
        smooth_box_alloc alloc W H p ((fun x y => smoothCell g W H x y), k + 1)
      else (g, k + 1)

/-- `flood_from_edges_or_seed` with its two queue allocations made
explicit (geo.c, lines 199-206): the mask is zeroed first, then both
queues are requested; if either fails the function frees and returns —
the caller receives the all-zero (completely dry) mask with no error
(`if (!queue_x || !queue_y) { free(queue_x); free(queue_y); return; }`).
On success the queue-capacity-checked flood runs (`none` = the queue
overflow UB of `flood_from_edges_or_seed_checked`). -/
def flood_alloc (alloc : ℕ → Bool) (k : ℕ) (h : ℕ → ℕ → ℚ) (W H : ℕ)
    (level : ℚ) (from_edge : Bool) (seed : Option (ℤ × ℤ)) :
    Option (Finset (ℕ × ℕ)) × ℕ :=
  if alloc k && alloc (k + 1) then
    (flood_from_edges_or_seed_checked h W H level from_edge seed, k + 2)
  else (some ∅, k + 2)

/-- The `--values` output of geo.c's main (lines 396-409): row-major map
values, replaced by the water level on masked cells when water output is
requested. -/
def valuesOut (g : ℕ → ℕ → ℚ) (mask : Finset (ℕ × ℕ)) (W H : ℕ)
    (waterEnable valuesWithWater : Bool) (level : ℚ) : List ℚ :=
  ((List.range H).map (fun y => (List.range W).map (fun x =>
    if waterEnable && valuesWithWater && decide ((x, y) ∈ mask) then level
    else g x y))).flatten

/-- geo.c's main generation block (lines 363-410), `--values` run, with
every heap allocation driven by an oracle `alloc` numbering the requests
in program order: 0 = DS grid, 1 = map, then one per smoothing pass, then
(if water) the water mask, then the two flood queues.  A failed DS/map or
water-mask allocation prints a message and returns status 1
(`Except.error`); a failed smoothing or flood-queue allocation is absorbed
by the callee as above and the run completes with status 0 (`Except.ok`,
payload: printed values and next allocation index).  The outer `Option` is
`none` exactly when the flood overflows its queues (undefined behavior);
every defined run is `some`. -/
def geoMain (alloc : ℕ → Bool) (w W H seed : ℕ) (amp rough : ℚ)
    (passes : ℕ) (waterEnable fromEdge valuesWithWater : Bool) (level : ℚ)
    (wseed : Option (ℤ × ℤ)) (garbage : ℕ → ℚ) :
    Option (Except Unit (List ℚ × ℕ)) :=
  if alloc 0 && alloc 1 then
    let P := geoSide W H
    let ds := ds_generate w P amp rough (garbage, rng_srand w seed)
    let map0 : ℕ → ℕ → ℚ := fun x y => resampleCellV ds.1 P W H x y
    let sm := smooth_box_alloc alloc W H passes (map0, 2)
    if waterEnable then
      if alloc sm.2 then
        if fromEdge then
          let fl := flood_alloc alloc (sm.2 + 1) sm.1 W H level true wseed
          match fl.1 with
          | some M =>
              some (Except.ok
                (valuesOut sm.1 M W H waterEnable valuesWithWater level,
                 fl.2))
          | none => none
        else
          some (Except.ok
            (valuesOut sm.1 (mark_all_below sm.1 W H level) W H waterEnable
              valuesWithWater level, sm.2 + 1))
      else some (Except.error ())
    else
      some (Except.ok
        (valuesOut sm.1 ∅ W H waterEnable valuesWithWater level, sm.2))
  else some (Except.error ())

end Geo

namespace Plasma

/-- One cell of a box-blur pass (plasma.c, lines 207-220): the mean of the
`(2r+1)^2` border-clamped samples. -/
def blurCell (g : ℕ → ℕ → ℚ) (W H r x y : ℕ) : ℚ :=
  (((Iso.intRange ((y : ℤ) - r) ((y : ℤ) + r)).map (fun yy =>
      ((Iso.intRange ((x : ℤ) - r) ((x : ℤ) + r)).map (fun xx =>
        g (Geo.clampIdx W xx) (Geo.clampIdx H yy))).sum)).sum)
    / (((2 * r + 1) * (2 * r + 1) : ℕ) : ℚ)

/-- The `p` ping-pong passes of plasma.c's `box_blur` (lines 203-228) with
the final copy-back (lines 224-227): `p` successive blurs of the grid. -/
def blurIter (W H r : ℕ) : ℕ → (ℕ → ℕ → ℚ) → (ℕ → ℕ → ℚ)
  | 0, g => g
  | p + 1, g => blurIter W H r p (fun x y => blurCell g W H r x y)

/-- `box_blur` (plasma.c, lines 194-232) with its single temporary-buffer
allocation explicit: with `r, p > 0` one buffer is requested; on failure
the function returns at once — the caller receives the grid unblurred with
no error signalled (`if (!tmp) return;`). -/
def box_blur_alloc (alloc : ℕ → Bool) (k : ℕ) (g : ℕ → ℕ → ℚ)
    (W H r p : ℕ) : (ℕ → ℕ → ℚ) × ℕ :=
  if r = 0 ∨ p = 0 then (g, k)
  else if alloc k then (blurIter W H r p g, k + 1)
  else (g, k + 1)

end Plasma

/-- C8: counterexample.  Allocation failures in the smoother and in the
flood fill do not abort: (1) a run whose smoothing-pass buffer allocation
(request 2) fails still terminates with success status, delivering exactly
the output of a run that never smooths (the unblurred map); (2) a run
whose flood-queue allocation (request 3) fails still terminates with
success status, delivering exactly the output of a run with water disabled
(a completely dry mask), contradicting the abort-on-any-allocation-failure
policy. -/
theorem C8_counterexample_silent_allocation_failures :
    ((fun k => decide (k ≠ 2)) 2 = false ∧
      ∃ vals k1 k2,
        Geo.geoMain (fun k => decide (k ≠ 2)) 32 2 2 1 1 (13 / 20) 1
            false false false (1 / 5) none (fun _ => 0)
          = some (Except.ok (vals, k1)) ∧
        Geo.geoMain (fun _ => true) 32 2 2 1 1 (13 / 20) 0
            false false false (1 / 5) none (fun _ => 0)
          = some (Except.ok (vals, k2))) ∧
    ((fun k => decide (k ≠ 3)) 3 = false ∧
      ∃ vals k1 k2,
        Geo.geoMain (fun k => decide (k ≠ 3)) 32 2 2 1 1 (13 / 20) 0
            true true true (1 / 5) none (fun _ => 0)
          = some (Except.ok (vals, k1)) ∧
        Geo.geoMain (fun _ => true) 32 2 2 1 1 (13 / 20) 0
            false false false (1 / 5) none (fun _ => 0)
          = some (Except.ok (vals, k2))) := by
  constructor
  · refine ⟨by decide, ?_⟩
    have h1 : Geo.geoMain (fun k => decide (k ≠ 2)) 32 2 2 1 1 (13 / 20) 1
        false false false (1 / 5) none (fun _ => 0)
        = some (Except.ok (Geo.valuesOut
            (fun x y => Geo.resampleCellV
              (Geo.ds_generate 32 (Geo.geoSide 2 2) 1 (13 / 20)
                ((fun _ => 0), Geo.rng_srand 32 1)).1
              (Geo.geoSide 2 2) 2 2 x y) ∅ 2 2 false false (1 / 5), 3)) := by
      simp [Geo.geoMain, Geo.smooth_box_alloc]
    have h2 : Geo.geoMain (fun _ => true) 32 2 2 1 1 (13 / 20) 0
        false false false (1 / 5) none (fun _ => 0)
        = some (Except.ok (Geo.valuesOut
            (fun x y => Geo.resampleCellV
              (Geo.ds_generate 32 (Geo.geoSide 2 2) 1 (13 / 20)
                ((fun _ => 0), Geo.rng_srand 32 1)).1
              (Geo.geoSide 2 2) 2 2 x y) ∅ 2 2 false false (1 / 5), 2)) := by
      simp [Geo.geoMain, Geo.smooth_box_alloc]
    exact ⟨_, 3, 2, h1, h2⟩
  · refine ⟨by decide, ?_⟩
    have h1 : Geo.geoMain (fun k => decide (k ≠ 3)) 32 2 2 1 1 (13 / 20) 0
        true true true (1 / 5) none (fun _ => 0)
        = some (Except.ok (Geo.valuesOut
            (fun x y => Geo.resampleCellV
              (Geo.ds_generate 32 (Geo.geoSide 2 2) 1 (13 / 20)
                ((fun _ => 0), Geo.rng_srand 32 1)).1
              (Geo.geoSide 2 2) 2 2 x y) ∅ 2 2 false false (1 / 5), 5)) := by
      simp [Geo.geoMain, Geo.smooth_box_alloc, Geo.flood_alloc,
        Geo.valuesOut, List.range_succ]
    have h2 : Geo.geoMain (fun _ => true) 32 2 2 1 1 (13 / 20) 0
        false false false (1 / 5) none (fun _ => 0)
        = some (Except.ok (Geo.valuesOut
            (fun x y => Geo.resampleCellV
              (Geo.ds_generate 32 (Geo.geoSide 2 2) 1 (13 / 20)
                ((fun _ => 0), Geo.rng_srand 32 1)).1
              (Geo.geoSide 2 2) 2 2 x y) ∅ 2 2 false false (1 / 5), 2)) := by
      simp [Geo.geoMain, Geo.smooth_box_alloc, Geo.valuesOut,
        List.range_succ]
    exact ⟨_, 5, 2, h1, h2⟩

/-- C8 (amended): the main-level allocations do abort — a failed DS/map
allocation (requests 0/1) or water-mask allocation (request 2, water run)
prints a message and returns status 1 — but the stage-internal ones do
not: (iii) a run whose first smoothing allocation fails still completes
with success status (the map left unsmoothed), (iv) a run whose
flood-queue allocation fails still completes with success status and an
empty (all-dry) water mask, and (v) plasma.c's `box_blur` hands back the
grid unchanged when its temporary-buffer allocation fails, signalling
nothing. -/
theorem C8_amended_main_allocs_abort_stage_allocs_silent :
    (∀ (alloc : ℕ → Bool) w W H seed (amp rough : ℚ) passes we fe vww
        (level : ℚ) wseed (garbage : ℕ → ℚ),
      (alloc 0 = false ∨ alloc 1 = false) →
      Geo.geoMain alloc w W H seed amp rough passes we fe vww level wseed
        garbage = some (Except.error ())) ∧
    (∀ (alloc : ℕ → Bool) w W H seed (amp rough : ℚ) fe vww
        (level : ℚ) wseed (garbage : ℕ → ℚ),
      alloc 0 = true → alloc 1 = true → alloc 2 = false →
      Geo.geoMain alloc w W H seed amp rough 0 true fe vww level wseed
        garbage = some (Except.error ())) ∧
    (∀ (alloc : ℕ → Bool) w W H seed (amp rough : ℚ) p fe vww
        (level : ℚ) wseed (garbage : ℕ → ℚ),
      alloc 0 = true → alloc 1 = true → alloc 2 = false →
      ∃ vals, Geo.geoMain alloc w W H seed amp rough (p + 1) false fe vww
        level wseed garbage = some (Except.ok (vals, 3))) ∧
    (∀ (alloc : ℕ → Bool) w W H seed (amp rough : ℚ) vww
        (level : ℚ) wseed (garbage : ℕ → ℚ),
      alloc 0 = true → alloc 1 = true → alloc 2 = true → alloc 3 = false →
      ∃ g, Geo.geoMain alloc w W H seed amp rough 0 true true vww level
        wseed garbage
        = some (Except.ok (Geo.valuesOut g ∅ W H true vww level, 5))) ∧
    (∀ (alloc : ℕ → Bool) k (g : ℕ → ℕ → ℚ) W H r p,
      alloc k = false → 0 < r → 0 < p →
      Plasma.box_blur_alloc alloc k g W H r p = (g, k + 1)) := by
  refine ⟨?_, ?_, ?_, ?_, ?_⟩
  · intro alloc w W H seed amp rough passes we fe vww level wseed garbage h
    rcases h with h | h <;> simp [Geo.geoMain, h]
  · intro alloc w W H seed amp rough fe vww level wseed garbage h0 h1 h2
    simp [Geo.geoMain, Geo.smooth_box_alloc, h0, h1, h2]
  · intro alloc w W H seed amp rough p fe vww level wseed garbage h0 h1 h2
    refine ⟨Geo.valuesOut
      (fun x y => Geo.resampleCellV
        (Geo.ds_generate w (Geo.geoSide W H) amp rough
          (garbage, Geo.rng_srand w seed)).1 (Geo.geoSide W H) W H x y)
      ∅ W H false vww level, ?_⟩
    simp [Geo.geoMain, Geo.smooth_box_alloc, h0, h1, h2]
  · intro alloc w W H seed amp rough vww level wseed garbage h0 h1 h2 h3
    refine ⟨fun x y => Geo.resampleCellV
      (Geo.ds_generate w (Geo.geoSide W H) amp rough
        (garbage, Geo.rng_srand w seed)).1 (Geo.geoSide W H) W H x y, ?_⟩
    simp [Geo.geoMain, Geo.smooth_box_alloc, Geo.flood_alloc,
      h0, h1, h2, h3]
  · intro alloc k g W H r p hk hr hp
    unfold Plasma.box_blur_alloc
    rw [if_neg (by omega), if_neg (by rw [hk]; exact Bool.false_ne_true)]

/-- C8 (amended), witness: concrete allocation oracles exercising all five
parts — DS/map failure aborts, water-mask failure aborts, smoothing
failure completes with success, flood-queue failure completes with success
and a dry mask, and plasma's blur returns its grid unchanged on a failed
allocation. -/
theorem C8_amended_main_allocs_abort_stage_allocs_silent_witness :
    Geo.geoMain (fun _ => false) 32 2 2 1 1 (13 / 20) 0 false false false
        (1 / 5) none (fun _ => 0) = some (Except.error ()) ∧
    Geo.geoMain (fun k => decide (k < 2)) 32 2 2 1 1 (13 / 20) 0 true false
        false (1 / 5) none (fun _ => 0) = some (Except.error ()) ∧
    (∃ vals, Geo.geoMain (fun k => decide (k < 2)) 32 2 2 1 1 (13 / 20) 1
        false false false (1 / 5) none (fun _ => 0)
        = some (Except.ok (vals, 3))) ∧
    (∃ g, Geo.geoMain (fun k => decide (k < 3)) 32 2 2 1 1 (13 / 20) 0
        true true false (1 / 5) none (fun _ => 0)
        = some (Except.ok (Geo.valuesOut g ∅ 2 2 true false (1 / 5), 5))) ∧
    Plasma.box_blur_alloc (fun _ => false) 0 (fun _ _ => (1 : ℚ)) 2 2 1 1
      = ((fun _ _ => (1 : ℚ)), 1) :=
  ⟨C8_amended_main_allocs_abort_stage_allocs_silent.1 (fun _ => false)
      32 2 2 1 1 (13 / 20) 0 false false false (1 / 5) none (fun _ => 0)
      (Or.inl rfl),
   C8_amended_main_allocs_abort_stage_allocs_silent.2.1
      (fun k => decide (k < 2)) 32 2 2 1 1 (13 / 20) false false (1 / 5)
      none (fun _ => 0) (by decide) (by decide) (by decide),
   C8_amended_main_allocs_abort_stage_allocs_silent.2.2.1
      (fun k => decide (k < 2)) 32 2 2 1 1 (13 / 20) 0 false false (1 / 5)
      none (fun _ => 0) (by decide) (by decide) (by decide),
   C8_amended_main_allocs_abort_stage_allocs_silent.2.2.2.1
      (fun k => decide (k < 3)) 32 2 2 1 1 (13 / 20) false (1 / 5)
      none (fun _ => 0) (by decide) (by decide) (by decide) (by decide),
   C8_amended_main_allocs_abort_stage_allocs_silent.2.2.2.2
      (fun _ => false) 0 (fun _ _ => (1 : ℚ)) 2 2 1 1 rfl (by norm_num)
      (by norm_num)⟩
